import Mathlib

/-!
# Verification of the `aggrement_validation_B2C` validator

A shallow embedding of `src/validator.py` (the agreement-validation core):
the `difflib.SequenceMatcher`-based diff and similarity helpers
(`simple_diff`, `fuzzy_ratio`, `clause_similarity`), the
`AgreementValidator` constructor and its `validate` pipeline.

Python strings are modelled as `List Char` (wrapped in `String` at the
API surface); Python floats are modelled as `ℚ`; Python's `None` as
`Option.none`.  Character-class helpers (`str.lower`, `str.isspace`,
`\w`) are modelled on their ASCII behaviour, which covers every string
the repository's tests and examples exercise.
-/

namespace Validation

/-- Python `str.isspace` membership for a single character (ASCII range:
space, tab, newline, carriage return, vertical tab, form feed). -/
def pyIsSpace (c : Char) : Bool :=
  c = ' ' || c = '\t' || c = '\n' || c = '\r' || c = '\x0b' || c = '\x0c'

/-- Python `str.strip()` on a character list: drop leading and trailing
whitespace. -/
def pyStripL (l : List Char) : List Char :=
  ((l.dropWhile pyIsSpace).reverse.dropWhile pyIsSpace).reverse

/-- Python `str.strip()` on a string. -/
def pyStrip (s : String) : String := String.mk (pyStripL s.data)

/-- Python `str.lower()` (ASCII case mapping). -/
def pyLower (s : String) : String := String.mk (s.data.map Char.toLower)

/-- Worker for Python `str.split()` with no separator: splits on runs of
whitespace, never yields empty tokens.  `acc` is the current in-progress
token, reversed. -/
def wordsGo : List Char → List Char → List (List Char)
  | acc, [] => if acc = [] then [] else [acc.reverse]
  | acc, c :: cs =>
    if pyIsSpace c then
      if acc = [] then wordsGo [] cs else acc.reverse :: wordsGo [] cs
    else wordsGo (c :: acc) cs

/-- Python `str.split()` with no separator. -/
def pySplit (s : String) : List String := (wordsGo [] s.data).map String.mk

/-- Worker for Python `str.splitlines()`: splits on `\n`, `\r` and
`\r\n` (the ASCII line breaks), with no trailing empty line. -/
def splitlinesGo : List Char → List Char → List (List Char)
  | acc, [] => if acc = [] then [] else [acc.reverse]
  | acc, '\r' :: '\n' :: rest => acc.reverse :: splitlinesGo [] rest
  | acc, '\n' :: rest => acc.reverse :: splitlinesGo [] rest
  | acc, '\r' :: rest => acc.reverse :: splitlinesGo [] rest
  | acc, c :: rest => splitlinesGo (c :: acc) rest

/-- Python `str.splitlines()`. -/
def pySplitlines (s : String) : List String := (splitlinesGo [] s.data).map String.mk

/-- Python slicing `l[x:y]` for `x ≤ y` (difflib only slices with
in-order indices). -/
def sliceList (l : List Char) (x y : Nat) : List Char := (l.drop x).take (y - x)

/-- Python substring containment `small in big`. -/
def pyContains (big small : List Char) : Bool := decide (small <:+: big)

/-!
## `difflib.SequenceMatcher(None, a, b)`

Faithful embedding of the CPython algorithm for `isjunk=None` (every
call site in `validator.py` uses `SequenceMatcher(None, a, b)`): with no
junk predicate `bjunk` is empty, so the two junk-extension loops of
`find_longest_match` never fire and are omitted; the `autojunk`
treatment of popular elements (only active when `len(b) >= 200`) is
embedded.  The bounded loops are written with explicit fuel so that the
kernel can evaluate them; the fuel supplied is proved sufficient.
-/

namespace Difflib

/-- `a[i:i+k]` and `b[j:j+k]` agree pointwise (difflib's matching-block
property, stated with `getD`). -/
def MatchAt (a b : List Char) (i j k : Nat) : Prop :=
  ∀ m, m < k → a.getD (i + m) ' ' = b.getD (j + m) ' '

instance (a b : List Char) (i j k : Nat) : Decidable (MatchAt a b i j k) :=
  Nat.decidableBallLT k _

/-- Autojunk popularity test from `SequenceMatcher.__chain_b`: an element
is "popular" (and purged from `b2j`) when `len(b) >= 200` and it occurs
in more than `len(b) // 100 + 1` positions of `b`. -/
def bpopular (b : List Char) (c : Char) : Bool :=
  decide (200 ≤ b.length) && decide (b.length / 100 + 1 < b.count c)

/-- `b2j[c]`: the ascending positions of `c` in `b`, with popular
elements purged (`SequenceMatcher.__chain_b`). -/
def b2j (b : List Char) (c : Char) : List Nat :=
  if bpopular b c then [] else (List.range b.length).filter (fun j => b.getD j ' ' == c)

/-- State of the `find_longest_match` dynamic-programming loop:
the best block found so far and the `j2len` table (total function,
value `0` standing for "no entry"). -/
structure FLMState where
  besti : Nat
  bestj : Nat
  bestsize : Nat
  j2len : Nat → Nat

/-- Inner loop body of `find_longest_match`: for one candidate position
`j` of `a[i]` in `b`, compute `k = j2len.get(j-1, 0) + 1` and update the
best block when `k > bestsize`. -/
def innerStep (i : Nat) (old : Nat → Nat) (st : Nat × Nat × Nat) (j : Nat) :
    Nat × Nat × Nat :=
  let k := (if j = 0 then 0 else old (j - 1)) + 1
  if st.2.2 < k then (i + 1 - k, j + 1 - k, k) else st

/-- One iteration (index `i`) of the outer loop of
`find_longest_match`: fold the inner loop over the in-window positions
of `a[i]` in `b`, and rebuild `j2len`. -/
def flmStep (a b : List Char) (blo bhi : Nat) (st : FLMState) (i : Nat) : FLMState :=
  let c := a.getD i ' '
  let js := (b2j b c).filter (fun j => blo ≤ j && j < bhi)
  let best := js.foldl (innerStep i st.j2len) (st.besti, st.bestj, st.bestsize)
  let old := st.j2len
  let newj2len : Nat → Nat := fun j =>
    if bpopular b c = false ∧ j < b.length ∧ b.getD j ' ' = c ∧ blo ≤ j ∧ j < bhi then
      (if j = 0 then 0 else old (j - 1)) + 1
    else 0
  ⟨best.1, best.2.1, best.2.2, newj2len⟩

/-- First extension loop of `find_longest_match`: extend the best block
to the left while the flanking characters agree (with `isjunk=None`
every character is non-junk).  Fuel-bounded; `bi` decreases each step so
fuel `bi` suffices. -/
def extendLeft (a b : List Char) (alo blo : Nat) :
    Nat → Nat → Nat → Nat → Nat × Nat × Nat
  | 0, bi, bj, bs => (bi, bj, bs)
  | fuel + 1, bi, bj, bs =>
    if alo < bi ∧ blo < bj ∧ a.getD (bi - 1) ' ' = b.getD (bj - 1) ' ' then
      extendLeft a b alo blo fuel (bi - 1) (bj - 1) (bs + 1)
    else (bi, bj, bs)

/-- Second extension loop of `find_longest_match`: extend the best block
to the right while the flanking characters agree.  Fuel-bounded; each
step needs `bi + bs < ahi` so fuel `ahi` suffices. -/
def extendRight (a b : List Char) (ahi bhi bi bj : Nat) : Nat → Nat → Nat
  | 0, bs => bs
  | fuel + 1, bs =>
    if bi + bs < ahi ∧ bj + bs < bhi ∧ a.getD (bi + bs) ' ' = b.getD (bj + bs) ' ' then
      extendRight a b ahi bhi bi bj fuel (bs + 1)
    else bs

/-- `SequenceMatcher.find_longest_match(alo, ahi, blo, bhi)` with
`isjunk=None`: the DP loop over `i ∈ [alo, ahi)` followed by the two
non-junk extension loops (the junk extension loops never fire since
`bjunk = ∅`). -/
def findLongestMatch (a b : List Char) (alo ahi blo bhi : Nat) : Nat × Nat × Nat :=
  let st := (List.range' alo (ahi - alo)).foldl (flmStep a b blo bhi)
      ⟨alo, blo, 0, fun _ => 0⟩
  let l := extendLeft a b alo blo st.besti st.besti st.bestj st.bestsize
  (l.1, l.2.1, extendRight a b ahi bhi l.1 l.2.1 ahi l.2.2)

/-- Recursive form of `SequenceMatcher.get_matching_blocks`' queue loop:
the blocks of the rectangle `a[alo:ahi] × b[blo:bhi]`, in increasing
position order (CPython collects the same blocks in queue order and then
sorts them).  Fuel-bounded structural recursion; each recursive call
strictly shrinks `(ahi - alo) + (bhi - blo)`, so that quantity bounds
the needed fuel. -/
def blocksIn (a b : List Char) : Nat → Nat → Nat → Nat → Nat → List (Nat × Nat × Nat)
  | 0, _, _, _, _ => []
  | fuel + 1, alo, ahi, blo, bhi =>
    let m := findLongestMatch a b alo ahi blo bhi
    if m.2.2 = 0 then []
    else
      (if alo < m.1 ∧ blo < m.2.1 then blocksIn a b fuel alo m.1 blo m.2.1 else []) ++
      [m] ++
      (if m.1 + m.2.2 < ahi ∧ m.2.1 + m.2.2 < bhi then
        blocksIn a b fuel (m.1 + m.2.2) ahi (m.2.1 + m.2.2) bhi else [])

/-- The adjacent-block collapsing loop at the end of
`get_matching_blocks` (carrying the current candidate `(i1, j1, k1)`,
initially the zero dummy). -/
def collapseGo : Nat → Nat → Nat → List (Nat × Nat × Nat) → List (Nat × Nat × Nat)
  | i1, j1, k1, [] => if k1 = 0 then [] else [(i1, j1, k1)]
  | i1, j1, k1, (i2, j2, k2) :: rest =>
    if i1 + k1 = i2 ∧ j1 + k1 = j2 then collapseGo i1 j1 (k1 + k2) rest
    else (if k1 = 0 then [] else [(i1, j1, k1)]) ++ collapseGo i2 j2 k2 rest

/-- `SequenceMatcher(None, a, b).get_matching_blocks()`: sorted blocks of
the whole rectangle, adjacent blocks collapsed, terminated by the
`(len(a), len(b), 0)` sentinel. -/
def matchingBlocks (a b : List Char) : List (Nat × Nat × Nat) :=
  collapseGo 0 0 0 (blocksIn a b (a.length + b.length + 1) 0 a.length 0 b.length) ++
    [(a.length, b.length, 0)]

/-- Total number of matched elements, `sum(size for (i, j, size) in blocks)`. -/
def totalMatches (a b : List Char) : Nat :=
  ((matchingBlocks a b).map (fun t => t.2.2)).sum

/-- `SequenceMatcher(None, a, b).ratio()` as an exact rational:
`2M / (len(a) + len(b))`, and `1.0` when both are empty
(`difflib._calculate_ratio`). -/
def seqRatio (a b : List Char) : ℚ :=
  if a.length + b.length = 0 then 1
  else 2 * (totalMatches a b : ℚ) / ((a.length : ℚ) + (b.length : ℚ))

/-- Opcode tags of `SequenceMatcher.get_opcodes`. -/
inductive Tag where
  | replace | delete | insert | equal
  deriving DecidableEq, Repr

/-- One opcode `(tag, i1, i2, j1, j2)`. -/
structure Op where
  tag : Tag
  i1 : Nat
  i2 : Nat
  j1 : Nat
  j2 : Nat
  deriving DecidableEq, Repr

/-- The loop of `get_opcodes`: walk the matching blocks carrying the
current position `(i, j)`, emitting a gap opcode (`replace`/`delete`/
`insert`) before each block and an `equal` opcode for each non-sentinel
block. -/
def opcodesGo : Nat → Nat → List (Nat × Nat × Nat) → List Op
  | _, _, [] => []
  | i, j, (ai, bj, size) :: rest =>
    (if i < ai ∧ j < bj then [⟨Tag.replace, i, ai, j, bj⟩]
     else if i < ai then [⟨Tag.delete, i, ai, j, bj⟩]
     else if j < bj then [⟨Tag.insert, i, ai, j, bj⟩]
     else []) ++
    (if size = 0 then [] else [⟨Tag.equal, ai, ai + size, bj, bj + size⟩]) ++
    opcodesGo (ai + size) (bj + size) rest

/-- `SequenceMatcher(None, a, b).get_opcodes()`. -/
def getOpcodes (a b : List Char) : List Op := opcodesGo 0 0 (matchingBlocks a b)

/-- Well-formed block chains: starting from cursor `(x, y)`, each block
begins at or after the cursor, has positive size, genuinely matches, and
moves the cursor to its end; the final cursor is within `(X, Y)`.  This
is the structural invariant of `get_matching_blocks`' output (without
the sentinel). -/
def BWF (a b : List Char) : Nat → Nat → List (Nat × Nat × Nat) → Nat → Nat → Prop
  | x, y, [], X, Y => x ≤ X ∧ y ≤ Y
  | x, y, (i, j, k) :: rest, X, Y =>
    x ≤ i ∧ y ≤ j ∧ 1 ≤ k ∧ MatchAt a b i j k ∧ BWF a b (i + k) (j + k) rest X Y

/-- Invariant of the best triple `(besti, bestj, bestsize)` during and
after `find_longest_match` on the window `[alo, ahi) × [blo, bhi)`. -/
def BestInv (a b : List Char) (alo ahi blo bhi : Nat) (t : Nat × Nat × Nat) : Prop :=
  alo ≤ t.1 ∧ blo ≤ t.2.1 ∧
  (t.2.2 = 0 → t.1 = alo ∧ t.2.1 = blo) ∧
  (t.2.2 ≠ 0 → t.1 + t.2.2 ≤ ahi ∧ t.2.1 + t.2.2 ≤ bhi ∧ MatchAt a b t.1 t.2.1 t.2.2)

/-- Invariant of the `j2len` table once every `i' < iNext` of the window
has been processed: a nonzero entry at `j` records a common run of that
length ending at `a`-index `iNext - 1` and `b`-index `j`, lying inside
the window. -/
def J2Inv (a b : List Char) (alo blo bhi iNext : Nat) (f : Nat → Nat) : Prop :=
  ∀ j, f j ≠ 0 →
    1 ≤ f j ∧ alo + f j ≤ iNext ∧ blo + f j ≤ j + 1 ∧ j < bhi ∧
    MatchAt a b (iNext - f j) (j + 1 - f j) (f j)

/-- The `b`-side spans of the `insert` opcodes, in order (what
`simple_diff` stores under `"added"`). -/
def insertSpans (b : List Char) (ops : List Op) : List (List Char) :=
  ops.filterMap (fun op => if op.tag = Tag.insert then some (sliceList b op.j1 op.j2) else none)

/-- The `a`-side spans of the `delete` opcodes, in order (what
`simple_diff` stores under `"removed"`). -/
def deleteSpans (a : List Char) (ops : List Op) : List (List Char) :=
  ops.filterMap (fun op => if op.tag = Tag.delete then some (sliceList a op.i1 op.i2) else none)

/-- The reconstruction procedure of the round-trip property: walk the
opcode sequence over `a`, keeping the spans of `equal` opcodes, splicing
in the recorded `added` spans at `insert` opcodes, and dropping the
spans of `delete` opcodes.  A `replace` opcode carries spans recorded in
neither list, so the procedure has nothing to apply there. -/
def applyDiff (a : List Char) : List Op → List (List Char) → List Char
  | [], _ => []
  | op :: ops, adds =>
    match op.tag with
    | Tag.equal => sliceList a op.i1 op.i2 ++ applyDiff a ops adds
    | Tag.insert => adds.headD [] ++ applyDiff a ops adds.tail
    | Tag.delete => applyDiff a ops adds
    | Tag.replace => applyDiff a ops adds

end Difflib

open Difflib

/-!
## The helper functions of `validator.py`
-/

/-- Result record of `simple_diff`. -/
structure DiffResult where
  added : List String
  removed : List String
  deriving DecidableEq, Repr

/-- Core of `simple_diff` on character lists: collect the `b`-span of
each `insert` opcode and the `a`-span of each `delete` opcode, in opcode
order. -/
def simpleDiffL (a b : List Char) : List (List Char) × List (List Char) :=
  let ops := getOpcodes a b
  (insertSpans b ops, deleteSpans a ops)

/-- `simple_diff(a, b)` from `validator.py` (the `a or ""` guards are
identities here since the embedding's strings are never `None`). -/
def simple_diff (a b : String) : DiffResult :=
  let d := simpleDiffL a.data b.data
  ⟨d.1.map String.mk, d.2.map String.mk⟩

/-- `fuzzy_ratio(a, b)` from `validator.py`, with Python floats modelled
as exact rationals: `1.0` when both strings are empty, `0.0` when
exactly one is empty or when either lower-cased token set is empty, else
`0.6 * token_score + 0.4 * SequenceMatcher(None, a, b).ratio()`. -/
def fuzzy_ratio (a b : String) : ℚ :=
  if a = "" ∧ b = "" then 1
  else if a = "" ∨ b = "" then 0
  else
    let aTokens := (pySplit (pyLower a)).toFinset
    let bTokens := (pySplit (pyLower b)).toFinset
    if aTokens = ∅ ∨ bTokens = ∅ then 0
    else
      let token_score : ℚ := ((aTokens ∩ bTokens).card : ℚ) / ((aTokens ∪ bTokens).card : ℚ)
      6/10 * token_score + 4/10 * seqRatio a.data b.data

/-- `clause_similarity(a, b) = fuzzy_ratio(a, b)`. -/
def clause_similarity (a b : String) : ℚ := fuzzy_ratio a b

/-- The lower-cased whitespace-token set of a string
(`set(s.lower().split())`). -/
def tokensOf (s : String) : Finset String := (pySplit (pyLower s)).toFinset

/-- The spec's `tokenJaccard(a, b)` as the claim words it: intersection
size over union size of the lower-cased token sets, `0.0` if either
token set is empty.  Stated from the spec for comparison with
`fuzzy_ratio`. -/
def tokenJaccardClaim (a b : String) : ℚ :=
  if tokensOf a = ∅ ∨ tokensOf b = ∅ then 0
  else ((tokensOf a ∩ tokensOf b).card : ℚ) / ((tokensOf a ∪ tokensOf b).card : ℚ)

/-- The spec's blend formula
`0.6 * tokenJaccard(a, b) + 0.4 * sequenceRatio(a, b)` as the claim
words it, for comparison with `fuzzy_ratio` on non-empty inputs. -/
def blendClaim (a b : String) : ℚ :=
  6/10 * tokenJaccardClaim a b + 4/10 * seqRatio a.data b.data

/-!
## The `AgreementValidator` class

The constructor reads a YAML configuration file.  The embedding models
the configuration source as: file missing, file unparseable (both are
caught by the `try/except` and yield `{}`), or a parsed YAML mapping
with scalar/sequence values (the key/value document format of the
configuration contract).  YAML scalars are modelled by `YVal`; Python
exceptions by `Except PyErr`.
-/

/-- A YAML value as produced by `yaml.safe_load`. -/
inductive YVal where
  | ystr (s : String)
  | yint (n : Int)
  | ynum (q : ℚ)
  | ybool (b : Bool)
  | ynull
  | ylist (l : List YVal)

/-- Python truthiness of a `YVal`. -/
def ytruthy : YVal → Bool
  | YVal.ystr s => !(s == "")
  | YVal.yint n => !(n == 0)
  | YVal.ynum q => !(q == 0)
  | YVal.ybool b => b
  | YVal.ynull => false
  | YVal.ylist l => !l.isEmpty

/-- The configuration source seen by `AgreementValidator.__init__`. -/
inductive ConfigSrc where
  | missing
  | unparseable
  | doc (entries : List (String × YVal))

/-- Python exceptions distinguished by the embedding (`re.error` is
caught inside the constructor and never escapes). -/
inductive PyErr where
  | typeError
  | valueError
  | attributeError
  deriving DecidableEq, Repr

/-- `d[k] = v` on an insertion-ordered dict: overwrite in place if the
key exists, else append. -/
def dictInsert {α : Type} (m : List (String × α)) (k : String) (v : α) :
    List (String × α) :=
  if m.any (fun p => p.1 = k) then m.map (fun p => if p.1 = k then (k, v) else p)
  else m ++ [(k, v)]

/-- `base.update(overrides)` on insertion-ordered dicts. -/
def dictUpdate {α : Type} (base overrides : List (String × α)) : List (String × α) :=
  overrides.foldl (fun m p => dictInsert m p.1 p.2) base

/-- `d.get(k)` as an association-list lookup. -/
def alookup {α : Type} (m : List (String × α)) (k : String) : Option α :=
  List.lookup k m

/-- The default PAN pattern string of `AgreementValidator.DEFAULT_CONFIG`. -/
def panDefaultPattern : String := "\\b([A-Z]{5}[0-9]{4}[A-Z])\\b"

/-- The default GST pattern string of `AgreementValidator.DEFAULT_CONFIG`. -/
def gstDefaultPattern : String := "\\b[0-9]{2}[A-Z]{5}[0-9]{4}[A-Z][1-9A-Z]Z[0-9A-Z]\\b"

/-- `AgreementValidator.DEFAULT_CONFIG`. -/
def DEFAULT_CONFIG : List (String × YVal) :=
  [("pan_regex", YVal.ystr panDefaultPattern),
   ("gst_regex", YVal.ystr gstDefaultPattern),
   ("coi_keywords", YVal.ylist [YVal.ystr "certificate of incorporation",
                                YVal.ystr "incorporation certificate"]),
   ("ratecard_keywords", YVal.ylist [YVal.ystr "rate card", YVal.ystr "rate-card",
                                     YVal.ystr "price list"]),
   ("similarity_threshold", YVal.ynum (75/100))]

/-- Scanner state for `reOk`: group depth, inside-character-class flag,
pending-escape flag. -/
def reOkGo : Nat → Bool → Bool → List Char → Bool
  | depth, inClass, esc, [] => depth = 0 && !inClass && !esc
  | depth, inClass, true, _ :: rest => reOkGo depth inClass false rest
  | depth, inClass, false, c :: rest =>
    if c = '\\' then reOkGo depth inClass true rest
    else if inClass then
      (if c = ']' then reOkGo depth false false rest else reOkGo depth true false rest)
    else if c = '[' then reOkGo depth true false rest
    else if c = '(' then reOkGo (depth + 1) false false rest
    else if c = ')' then
      (match depth with
       | 0 => false
       | d + 1 => reOkGo d false false rest)
    else reOkGo depth false false rest

/-- Modelled from Python's `re.compile` success on pattern strings, for
the syntactic fragment the configuration exercises: a pattern compiles
when its escapes are complete and its groups `(...)` and character
classes `[...]` are balanced; otherwise `re.compile` raises `re.error`. -/
def reOk (s : String) : Bool := reOkGo 0 false false s.data

/-- `self.cfg.get(key) or r""`: a falsy configured value (absent, `None`,
empty string, `0`, ...) is replaced by the empty pattern string. -/
def patternOf (v : Option YVal) : YVal :=
  match v with
  | some w => if ytruthy w then w else YVal.ystr ""
  | none => YVal.ystr ""

/-- `try: re.compile(p) except re.error: re.compile(default)`: a string
that fails to compile falls back to the default pattern; a non-string
argument makes `re.compile` raise `TypeError`, which the `except
re.error` clause does not catch. -/
def compilePattern (v : YVal) (deflt : String) : Except PyErr String :=
  match v with
  | YVal.ystr s => Except.ok (if reOk s then s else deflt)
  | _ => Except.error PyErr.typeError

/-- `[k.lower() for k in self.cfg.get(key, [])]`: lower-case a keyword
list.  Iterating a string yields its characters; `.lower()` on a
non-string element raises `AttributeError`; iterating a non-iterable
value raises `TypeError`. -/
def lowerKeywords : Option YVal → Except PyErr (List String)
  | none => Except.ok []
  | some (YVal.ylist vs) =>
    vs.mapM (fun v =>
      match v with
      | YVal.ystr s => Except.ok (pyLower s)
      | _ => Except.error PyErr.attributeError)
  | some (YVal.ystr s) => Except.ok (s.data.map (fun c => String.mk [c.toLower]))
  | some _ => Except.error PyErr.typeError

/-- Digits-to-number helper for `pyFloat`. -/
def digitsVal (l : List Char) : Nat :=
  l.foldl (fun acc c => acc * 10 + (c.toNat - '0'.toNat)) 0

/-- Modelled from Python's `float(str)` on plain decimal literals
(optional surrounding whitespace, optional sign, digits with an optional
fractional part); other strings raise `ValueError`.  Exponent, `inf` and
`nan` forms are outside the configuration contract and not modelled. -/
def parseDecimal (s : String) : Option ℚ :=
  let l := pyStripL s.data
  let sign : ℚ := if l.headD ' ' = '-' then -1 else 1
  let l := if l.headD ' ' = '-' ∨ l.headD ' ' = '+' then l.tail else l
  let intPart := l.takeWhile Char.isDigit
  let rest := l.dropWhile Char.isDigit
  match rest with
  | [] => if intPart = [] then none else some (sign * digitsVal intPart)
  | '.' :: frac =>
    if frac.all Char.isDigit ∧ (intPart ≠ [] ∨ frac ≠ []) then
      some (sign * ((digitsVal intPart : ℚ) + (digitsVal frac : ℚ) / 10 ^ frac.length))
    else none
  | _ => none

/-- Python `float(v)`: numbers and booleans convert, decimal strings
parse, `None` and lists raise `TypeError`, other strings raise
`ValueError`. -/
def pyFloat : YVal → Except PyErr ℚ
  | YVal.ynum q => Except.ok q
  | YVal.yint n => Except.ok (n : ℚ)
  | YVal.ybool b => Except.ok (if b then 1 else 0)
  | YVal.ystr s =>
    match parseDecimal s with
    | some q => Except.ok q
    | none => Except.error PyErr.valueError
  | YVal.ynull => Except.error PyErr.typeError
  | YVal.ylist _ => Except.error PyErr.typeError

instance {ε α : Type} [DecidableEq ε] [DecidableEq α] : DecidableEq (Except ε α) :=
  fun a b =>
    match a, b with
    | Except.error e₁, Except.error e₂ =>
      if h : e₁ = e₂ then Decidable.isTrue (by rw [h]) else Decidable.isFalse (by simp [h])
    | Except.ok x, Except.ok y =>
      if h : x = y then Decidable.isTrue (by rw [h]) else Decidable.isFalse (by simp [h])
    | Except.error _, Except.ok _ => Decidable.isFalse (by simp)
    | Except.ok _, Except.error _ => Decidable.isFalse (by simp)

/-- The state built by `AgreementValidator.__init__` (a compiled regex
is modelled by its accepted source string). -/
structure Validator where
  pan_pat : String
  gst_pat : String
  coi_keywords : List String
  ratecard_keywords : List String
  sim_threshold : ℚ
  deriving DecidableEq, Repr

/-- `AgreementValidator.__init__(config_path)`: load the configuration
(missing or unparseable file caught to `{}`), merge it over
`DEFAULT_CONFIG`, compile the two patterns (invalid regex strings fall
back to the defaults), lower-case the keyword lists and coerce the
threshold to float.  Any uncaught exception aborts construction. -/
def initValidator (src : ConfigSrc) : Except PyErr Validator :=
  let cfg : List (String × YVal) :=
    match src with
    | ConfigSrc.missing => []
    | ConfigSrc.unparseable => []
    | ConfigSrc.doc d => d
  let merged := dictUpdate DEFAULT_CONFIG cfg
  do
    let pan ← compilePattern (patternOf (alookup merged "pan_regex")) panDefaultPattern
    let gst ← compilePattern (patternOf (alookup merged "gst_regex")) gstDefaultPattern
    let coi ← lowerKeywords (alookup merged "coi_keywords")
    let rate ← lowerKeywords (alookup merged "ratecard_keywords")
    let thr ← pyFloat ((alookup merged "similarity_threshold").getD (YVal.ynum (75/100)))
    pure ⟨pan, gst, coi, rate, thr⟩

/-!
## Regex matching for the default patterns

`re.findall` semantics for the two default identifier patterns, which
are fixed-width sequences of ASCII character classes between word
boundaries: the engine scans left to right, matches greedily and
resumes after each (non-overlapping) match.
-/

/-- ASCII `\w` (regex word character). -/
def wordChar (c : Char) : Bool := c.isAlphanum || c = '_'

/-- Regex `\b` at position `p` of `t`: exactly one of the two adjacent
positions holds a word character (out of range counts as non-word). -/
def boundary (t : List Char) (p : Nat) : Bool :=
  let w : Nat → Bool := fun i => decide (i < t.length) && wordChar (t.getD i ' ')
  (match p with
   | 0 => false
   | q + 1 => w q) != w p

/-- Match a list of character classes against a prefix of `l`. -/
def classesMatch : List (Char → Bool) → List Char → Bool
  | [], _ => true
  | _ :: _, [] => false
  | cl :: cls, c :: cs => cl c && classesMatch cls cs

/-- A fixed-width class pattern, bounded by `\b` on both sides, matches
at position `p`. -/
def patMatchAt (t : List Char) (p : Nat) (pat : List (Char → Bool)) : Bool :=
  boundary t p && boundary t (p + pat.length) && classesMatch pat (t.drop p)

/-- `re.findall` scan for a fixed-width class pattern: try each position
left to right, emit the matched slice and resume at the match end.
Fuel-bounded; the position strictly increases, so `t.length + 1` fuel
suffices. -/
def findallFixed (pat : List (Char → Bool)) (t : List Char) :
    Nat → Nat → List (List Char)
  | 0, _ => []
  | fuel + 1, p =>
    if t.length ≤ p then []
    else if patMatchAt t p pat then
      sliceList t p (p + pat.length) :: findallFixed pat t fuel (p + pat.length)
    else findallFixed pat t fuel (p + 1)

/-- Character classes of the default PAN pattern
`\b([A-Z]{5}[0-9]{4}[A-Z])\b` (the group spans the whole body, so
`findall`'s group extraction returns the same slice). -/
def panClasses : List (Char → Bool) :=
  List.replicate 5 Char.isUpper ++ List.replicate 4 Char.isDigit ++ [Char.isUpper]

/-- Character classes of the default GST pattern
`\b[0-9]{2}[A-Z]{5}[0-9]{4}[A-Z][1-9A-Z]Z[0-9A-Z]\b`. -/
def gstClasses : List (Char → Bool) :=
  List.replicate 2 Char.isDigit ++ List.replicate 5 Char.isUpper ++
  List.replicate 4 Char.isDigit ++ [Char.isUpper] ++
  [fun c : Char => (decide ('1' ≤ c) && decide (c ≤ '9')) || c.isUpper] ++
  [fun c : Char => c == 'Z'] ++
  [fun c : Char => c.isDigit || c.isUpper]

/-- `self.pan_re.findall(text)` for the default PAN pattern. -/
def panFindall (s : String) : List String :=
  (findallFixed panClasses s.data (s.data.length + 1) 0).map String.mk

/-- `self.gst_re.findall(text)` for the default GST pattern. -/
def gstFindall (s : String) : List String :=
  (findallFixed gstClasses s.data (s.data.length + 1) 0).map String.mk

/-!
## `AgreementValidator`'s scanning and validation pipeline

Text extraction (`extract_text_and_images`) is an IO boundary over
optional PDF backends; the pipeline is embedded as a function of the
extracted texts.  A compiled regex is embedded as its `findall`
function. -/

/-- `AgreementValidator._search_pan_gst(text)`: empty text short-circuits
to two empty lists without consulting either pattern. -/
def searchPanGst (panF gstF : String → List String) (text : String) :
    List String × List String :=
  if text = "" then ([], []) else (panF text, gstF text)

/-- `AgreementValidator._keyword_check(text, keywords)`: lower-case the
text once and keep, in order, the keywords occurring in it as exact
substrings. -/
def keyword_check (text : String) (keywords : List String) : List String :=
  let t := pyLower text
  keywords.filter (fun k => pyContains t.data k.data)

/-- One entry of `validate`'s similarity loop output. -/
structure SimSample where
  main : String
  best_match : Option String
  score : ℚ
  deriving DecidableEq, Repr

/-- Per-extra-document summary record built by `validate`. -/
structure DocSummary where
  pan : List String
  gst : List String
  coi_keywords : List String
  rate_keywords : List String
  text_snippet : String
  deriving DecidableEq, Repr

/-- The summary dict returned by `validate` (nested dicts flattened into
named fields; `documents` is the insertion-ordered name → summary dict). -/
structure Report where
  pan_main : List String
  pan_client : List String
  gst_main : List String
  gst_client : List String
  coi_main : List String
  coi_client : List String
  rate_main : List String
  rate_client : List String
  diff : DiffResult
  clause_similarity_samples : List SimSample
  documents : List (String × DocSummary)
  deriving DecidableEq, Repr

/-- Lines 135-138 / 172-173 of `validator.py`: extracted text that is
empty or whitespace-only is replaced by the empty string. -/
def normalizeText (t : String) : String := if pyStrip t = "" then "" else t

/-- `[l.strip() for l in text.splitlines() if l.strip()][:200]`. -/
def cleanLines (t : String) : List String :=
  (((pySplitlines t).map pyStrip).filter (fun l => ¬l = "")).take 200

/-- One step of `validate`'s inner similarity loop: compare the current
client line and update the best pair on strict improvement
(`if sim > best`). -/
def simStep (m : String) (acc : Option String × ℚ) (c : String) : Option String × ℚ :=
  let sim := clause_similarity m c
  if acc.2 < sim then (some c, sim) else acc

/-- The inner similarity loop: fold the client lines with
`best = 0.0, best_line = None`, updating on strict improvement. -/
def bestMatchFor (m : String) (clines : List String) : Option String × ℚ :=
  clines.foldl (simStep m) (none, 0)

/-- The similarity sampling of `validate`: one sample per line of the
first 20 main lines, each scored against the first 40 client lines. -/
def mkSamples (main_text client_text : String) : List SimSample :=
  let mains := (cleanLines main_text).take 20
  let clients := (cleanLines client_text).take 40
  mains.map (fun m =>
    let b := bestMatchFor m clients
    ⟨m, b.1, b.2⟩)

/-- `main_lines[:20]` — the scanned main lines, as a function of the raw
extracted main text. -/
def mainsOf (mt : String) : List String := (cleanLines (normalizeText mt)).take 20

/-- `client_lines[:40]` — the compared client lines, as a function of the
raw extracted client text. -/
def clientsOf (ct : String) : List String := (cleanLines (normalizeText ct)).take 40

/-- `document_names[idx] if idx < len(document_names) else
f"document_{idx+1}.pdf"`. -/
def displayName (docNames : List String) (idx : Nat) : String :=
  docNames.getD idx ("document_" ++ toString (idx + 1) ++ ".pdf")

/-- The per-extra-document body of `validate`'s loop (extraction already
performed; its `try/except` degrades a failed extraction to `""`, which
is modelled by the supplied text). -/
def mkDocSummary (v : Validator) (panF gstF : String → List String)
    (dText : String) : DocSummary :=
  let t := normalizeText dText
  let pg := searchPanGst panF gstF t
  ⟨pg.1, pg.2, keyword_check t v.coi_keywords, keyword_check t v.ratecard_keywords,
   String.mk (t.data.take 1000)⟩

/-- `AgreementValidator.validate` as a function of the extracted texts:
normalize, scan identifiers and keywords on main and client, diff,
sample similarities, and build the extra-documents summary dict keyed by
display name. -/
def validateTexts (v : Validator) (panF gstF : String → List String)
    (main_text client_text : String) (docTexts docNames : List String) : Report :=
  let mt := normalizeText main_text
  let ct := normalizeText client_text
  let pgm := searchPanGst panF gstF mt
  let pgc := searchPanGst panF gstF ct
  let docs := docTexts.enum.foldl (fun m p =>
      dictInsert m (displayName docNames p.1) (mkDocSummary v panF gstF p.2)) []
  ⟨pgm.1, pgc.1, pgm.2, pgc.2,
   keyword_check mt v.coi_keywords, keyword_check ct v.coi_keywords,
   keyword_check mt v.ratecard_keywords, keyword_check ct v.ratecard_keywords,
   simple_diff mt ct, mkSamples mt ct, docs⟩

/-- The validator state produced by the default construction
(`AgreementValidator()` with no readable configuration file). -/
def defaultValidator : Validator :=
  ⟨panDefaultPattern, gstDefaultPattern,
   ["certificate of incorporation", "incorporation certificate"],
   ["rate card", "rate-card", "price list"], 75/100⟩

/-- `validate` under the default construction, with the default compiled
patterns' `findall` semantics. -/
def validateDefault (main_text client_text : String) (docTexts docNames : List String) :
    Report :=
  validateTexts defaultValidator panFindall gstFindall main_text client_text docTexts docNames

/-!
## Correctness of the `SequenceMatcher` embedding

The dynamic-programming loop of `find_longest_match` maintains
`BestInv` (the best triple is a genuine in-window match) and `J2Inv`
(the `j2len` table records genuine runs); the matching blocks therefore
form a well-formed chain (`BWF`), which gives the match-count bounds
behind `ratio ∈ [0, 1]` and the span equalities behind the diff
round-trip. -/

namespace Difflib

theorem matchAt_zero (a b : List Char) (i j : Nat) : MatchAt a b i j 0 :=
  fun m hm => absurd hm (Nat.not_lt_zero m)

theorem matchAt_one (a b : List Char) (i j : Nat)
    (h : a.getD i ' ' = b.getD j ' ') : MatchAt a b i j 1 := by
  intro m hm
  interval_cases m
  simpa using h

theorem matchAt_append (a b : List Char) (i j k₁ k₂ : Nat)
    (h₁ : MatchAt a b i j k₁) (h₂ : MatchAt a b (i + k₁) (j + k₁) k₂) :
    MatchAt a b i j (k₁ + k₂) := by
  intro m hm
  by_cases hlt : m < k₁
  · exact h₁ m hlt
  · have hm' : m - k₁ < k₂ := by omega
    have := h₂ (m - k₁) hm'
    have e1 : i + k₁ + (m - k₁) = i + m := by omega
    have e2 : j + k₁ + (m - k₁) = j + m := by omega
    rwa [e1, e2] at this

theorem matchAt_succ (a b : List Char) (i j k : Nat)
    (h : MatchAt a b i j k) (hc : a.getD (i + k) ' ' = b.getD (j + k) ' ') :
    MatchAt a b i j (k + 1) :=
  matchAt_append a b i j k 1 h (matchAt_one a b (i + k) (j + k) hc)

theorem matchAt_extend_left (a b : List Char) (i j k : Nat)
    (h : MatchAt a b (i + 1) (j + 1) k) (hc : a.getD i ' ' = b.getD j ' ') :
    MatchAt a b i j (k + 1) := by
  intro m hm
  cases m with
  | zero => simpa using hc
  | succ m' =>
    have := h m' (by omega)
    have e1 : i + 1 + m' = i + (m' + 1) := by omega
    have e2 : j + 1 + m' = j + (m' + 1) := by omega
    rwa [e1, e2] at this

/-- Extending a recorded `j2len` run by the current matching pair
`(i, j)`: the new length `(j2len.get(j-1, 0) + 1)` is again a genuine
in-window run ending at `(i, j)`. -/
theorem run_extend (a b : List Char) (alo blo bhi i j : Nat) (old : Nat → Nat)
    (hOld : J2Inv a b alo blo bhi i old) (hi : alo ≤ i) (hj : blo ≤ j)
    (hbj : b.getD j ' ' = a.getD i ' ') :
    ∀ k, k = (if j = 0 then 0 else old (j - 1)) + 1 →
    1 ≤ k ∧ alo + k ≤ i + 1 ∧ blo + k ≤ j + 1 ∧
    MatchAt a b (i + 1 - k) (j + 1 - k) k := by
  intro k hk
  by_cases hj0 : j = 0
  · rw [if_pos hj0] at hk
    subst hj0
    refine ⟨by omega, by omega, by omega, ?_⟩
    have h1 : MatchAt a b i 0 1 := matchAt_one a b i 0 hbj.symm
    subst hk
    simpa using h1
  · rw [if_neg hj0] at hk
    by_cases hm0 : old (j - 1) = 0
    · rw [hm0] at hk
      refine ⟨by omega, by omega, by omega, ?_⟩
      have h1 : MatchAt a b i j 1 := matchAt_one a b i j hbj.symm
      have e1 : i + 1 - k = i := by omega
      have e2 : j + 1 - k = j := by omega
      rw [e1, e2, hk]
      exact h1
    · obtain ⟨h1, h2, h3, _, h5⟩ := hOld (j - 1) hm0
      set m := old (j - 1) with hm
      have hmi : m ≤ i := by omega
      have hmj : m ≤ j := by omega
      have hrw : (j - 1) + 1 - m = j - m := by omega
      rw [hrw] at h5
      have hstep : MatchAt a b (i - m) (j - m) (m + 1) := by
        apply matchAt_succ a b (i - m) (j - m) m h5
        have e1 : i - m + m = i := by omega
        have e2 : j - m + m = j := by omega
        rw [e1, e2]
        exact hbj.symm
      refine ⟨by omega, by omega, by omega, ?_⟩
      have e1 : i + 1 - k = i - m := by omega
      have e2 : j + 1 - k = j - m := by omega
      rw [e1, e2, hk]
      exact hstep

/-- One inner-loop step preserves the best-triple invariant. -/
theorem innerStep_inv (a b : List Char) (alo ahi blo bhi i j : Nat)
    (old : Nat → Nat) (st : Nat × Nat × Nat)
    (hBest : BestInv a b alo ahi blo bhi st)
    (hOld : J2Inv a b alo blo bhi i old)
    (hi : alo ≤ i) (hiA : i < ahi) (hj : blo ≤ j) (hjB : j < bhi)
    (hbj : b.getD j ' ' = a.getD i ' ') :
    BestInv a b alo ahi blo bhi (innerStep i old st j) := by
  unfold innerStep
  dsimp only
  by_cases hlt : st.2.2 < (if j = 0 then 0 else old (j - 1)) + 1
  · rw [if_pos hlt]
    obtain ⟨hk1, hk2, hk3, hk4⟩ :=
      run_extend a b alo blo bhi i j old hOld hi hj hbj
        ((if j = 0 then 0 else old (j - 1)) + 1) rfl
    set k := (if j = 0 then 0 else old (j - 1)) + 1 with hk
    unfold BestInv
    dsimp only
    refine ⟨by omega, by omega, ?_, ?_⟩
    · intro h0
      omega
    · intro _
      exact ⟨by omega, by omega, hk4⟩
  · rw [if_neg hlt]
    exact hBest

/-- The inner loop over the candidate positions of `a[i]` preserves the
best-triple invariant. -/
theorem innerFold_inv (a b : List Char) (alo ahi blo bhi i : Nat) (old : Nat → Nat) :
    ∀ (js : List Nat) (st : Nat × Nat × Nat),
    (∀ j ∈ js, blo ≤ j ∧ j < bhi ∧ b.getD j ' ' = a.getD i ' ') →
    BestInv a b alo ahi blo bhi st →
    J2Inv a b alo blo bhi i old →
    alo ≤ i → i < ahi →
    BestInv a b alo ahi blo bhi (js.foldl (innerStep i old) st)
  | [], st, _, hBest, _, _, _ => hBest
  | j :: js, st, hjs, hBest, hOld, hi, hiA => by
    rw [List.foldl_cons]
    obtain ⟨h1, h2, h3⟩ := hjs j (List.mem_cons_self j js)
    exact innerFold_inv a b alo ahi blo bhi i old js _
      (fun j' hj' => hjs j' (List.mem_cons_of_mem j hj'))
      (innerStep_inv a b alo ahi blo bhi i j old st hBest hOld hi hiA h1 h2 h3)
      hOld hi hiA

/-- `BestInv` on a literal triple, componentwise. -/
theorem bestInv_mk (a b : List Char) (alo ahi blo bhi bi bj bs : Nat) :
    BestInv a b alo ahi blo bhi (bi, bj, bs) ↔
      alo ≤ bi ∧ blo ≤ bj ∧ (bs = 0 → bi = alo ∧ bj = blo) ∧
      (bs ≠ 0 → bi + bs ≤ ahi ∧ bj + bs ≤ bhi ∧ MatchAt a b bi bj bs) :=
  Iff.rfl

/-- Membership facts for the filtered candidate list the inner loop
iterates over. -/
theorem js_mem_facts (a b : List Char) (blo bhi i : Nat) :
    ∀ j ∈ (b2j b (a.getD i ' ')).filter (fun j => blo ≤ j && j < bhi),
      blo ≤ j ∧ j < bhi ∧ b.getD j ' ' = a.getD i ' ' := by
  intro j hj
  rw [List.mem_filter] at hj
  obtain ⟨hj1, hj2⟩ := hj
  simp only [Bool.and_eq_true, decide_eq_true_eq] at hj2
  refine ⟨hj2.1, hj2.2, ?_⟩
  unfold b2j at hj1
  by_cases hpop : bpopular b (a.getD i ' ') = true
  · rw [if_pos hpop] at hj1
    cases hj1
  · rw [if_neg hpop] at hj1
    rw [List.mem_filter] at hj1
    exact beq_iff_eq.mp hj1.2

/-- One outer-loop iteration of `find_longest_match` preserves both
invariants, advancing the table to `i + 1`. -/
theorem flmStep_inv (a b : List Char) (alo ahi blo bhi : Nat) (st : FLMState) (i : Nat)
    (hi : alo ≤ i) (hiA : i < ahi)
    (hBest : BestInv a b alo ahi blo bhi (st.besti, st.bestj, st.bestsize))
    (hJ : J2Inv a b alo blo bhi i st.j2len) :
    BestInv a b alo ahi blo bhi
      ((flmStep a b blo bhi st i).besti, (flmStep a b blo bhi st i).bestj,
        (flmStep a b blo bhi st i).bestsize) ∧
    J2Inv a b alo blo bhi (i + 1) (flmStep a b blo bhi st i).j2len := by
  constructor
  · have h := innerFold_inv a b alo ahi blo bhi i st.j2len
      ((b2j b (a.getD i ' ')).filter (fun j => blo ≤ j && j < bhi))
      (st.besti, st.bestj, st.bestsize)
      (js_mem_facts a b blo bhi i) hBest hJ hi hiA
    simpa [flmStep] using h
  · intro j hne
    simp only [flmStep] at hne ⊢
    by_cases hC : bpopular b (a.getD i ' ') = false ∧ j < b.length ∧
        b.getD j ' ' = a.getD i ' ' ∧ blo ≤ j ∧ j < bhi
    · rw [if_pos hC] at hne ⊢
      obtain ⟨-, -, hbj, hjlo, hjhi⟩ := hC
      obtain ⟨h1, h2, h3, h4⟩ :=
        run_extend a b alo blo bhi i j st.j2len hJ hi hjlo hbj
          ((if j = 0 then 0 else st.j2len (j - 1)) + 1) rfl
      exact ⟨h1, h2, h3, hjhi, h4⟩
    · rw [if_neg hC] at hne
      exact absurd rfl hne

/-- The outer loop over `range' i0 n` preserves the best-triple
invariant. -/
theorem flmFold_inv (a b : List Char) (alo ahi blo bhi : Nat) :
    ∀ (n i0 : Nat) (st : FLMState), alo ≤ i0 → i0 + n ≤ ahi →
    BestInv a b alo ahi blo bhi (st.besti, st.bestj, st.bestsize) →
    J2Inv a b alo blo bhi i0 st.j2len →
    BestInv a b alo ahi blo bhi
      (((List.range' i0 n).foldl (flmStep a b blo bhi) st).besti,
       ((List.range' i0 n).foldl (flmStep a b blo bhi) st).bestj,
       ((List.range' i0 n).foldl (flmStep a b blo bhi) st).bestsize)
  | 0, i0, st, _, _, hB, _ => by simpa using hB
  | n + 1, i0, st, h1, h2, hB, hJ => by
    rw [List.range'_succ, List.foldl_cons]
    have hstep := flmStep_inv a b alo ahi blo bhi st i0 h1 (by omega) hB hJ
    exact flmFold_inv a b alo ahi blo bhi n (i0 + 1) (flmStep a b blo bhi st i0)
      (by omega) (by omega) hstep.1 hstep.2

/-- The left extension loop preserves the best-triple invariant. -/
theorem extendLeft_inv (a b : List Char) (alo ahi blo bhi : Nat) :
    ∀ (fuel bi bj bs : Nat),
    BestInv a b alo ahi blo bhi (bi, bj, bs) →
    BestInv a b alo ahi blo bhi (extendLeft a b alo blo fuel bi bj bs)
  | 0, bi, bj, bs, hB => hB
  | fuel + 1, bi, bj, bs, hB => by
    unfold extendLeft
    by_cases hg : alo < bi ∧ blo < bj ∧ a.getD (bi - 1) ' ' = b.getD (bj - 1) ' '
    · rw [if_pos hg]
      rw [bestInv_mk] at hB
      obtain ⟨hB1, hB2, hB3, hB4⟩ := hB
      have hbs : bs ≠ 0 := by
        intro h0
        obtain ⟨e1, -⟩ := hB3 h0
        omega
      obtain ⟨hc1, hc2, hc3⟩ := hB4 hbs
      apply extendLeft_inv a b alo ahi blo bhi fuel
      rw [bestInv_mk]
      refine ⟨by omega, by omega, by omega, fun _ => ⟨by omega, by omega, ?_⟩⟩
      have heq : MatchAt a b (bi - 1 + 1) (bj - 1 + 1) bs := by
        have e1 : bi - 1 + 1 = bi := by omega
        have e2 : bj - 1 + 1 = bj := by omega
        rw [e1, e2]
        exact hc3
      exact matchAt_extend_left a b (bi - 1) (bj - 1) bs heq hg.2.2
    · rw [if_neg hg]
      exact hB

/-- The right extension loop preserves the best-triple invariant. -/
theorem extendRight_inv (a b : List Char) (alo ahi blo bhi bi bj : Nat) :
    ∀ (fuel bs : Nat),
    BestInv a b alo ahi blo bhi (bi, bj, bs) →
    BestInv a b alo ahi blo bhi (bi, bj, extendRight a b ahi bhi bi bj fuel bs)
  | 0, bs, hB => hB
  | fuel + 1, bs, hB => by
    unfold extendRight
    by_cases hg : bi + bs < ahi ∧ bj + bs < bhi ∧
        a.getD (bi + bs) ' ' = b.getD (bj + bs) ' '
    · rw [if_pos hg]
      rw [bestInv_mk] at hB
      obtain ⟨hB1, hB2, hB3, hB4⟩ := hB
      have hM : MatchAt a b bi bj bs := by
        by_cases h0 : bs = 0
        · subst h0
          exact matchAt_zero a b bi bj
        · exact (hB4 h0).2.2
      apply extendRight_inv a b alo ahi blo bhi bi bj fuel
      rw [bestInv_mk]
      exact ⟨hB1, hB2, by omega,
        fun _ => ⟨by omega, by omega, matchAt_succ a b bi bj bs hM hg.2.2⟩⟩
    · rw [if_neg hg]
      exact hB

/-- Specification of `find_longest_match`: the returned triple satisfies
the best-triple invariant — in particular a nonzero-size result is a
genuine matching block inside the window. -/
theorem findLongestMatch_spec (a b : List Char) (alo ahi blo bhi : Nat) :
    BestInv a b alo ahi blo bhi (findLongestMatch a b alo ahi blo bhi) := by
  unfold findLongestMatch
  have hinit : BestInv a b alo ahi blo bhi (alo, blo, 0) :=
    ⟨le_refl alo, le_refl blo, fun _ => ⟨rfl, rfl⟩, fun h => absurd rfl h⟩
  have hJinit : J2Inv a b alo blo bhi alo (fun _ => 0) := fun j hj => absurd rfl hj
  have hfold :
      BestInv a b alo ahi blo bhi
        (((List.range' alo (ahi - alo)).foldl (flmStep a b blo bhi)
            ⟨alo, blo, 0, fun _ => 0⟩).besti,
         ((List.range' alo (ahi - alo)).foldl (flmStep a b blo bhi)
            ⟨alo, blo, 0, fun _ => 0⟩).bestj,
         ((List.range' alo (ahi - alo)).foldl (flmStep a b blo bhi)
            ⟨alo, blo, 0, fun _ => 0⟩).bestsize) := by
    by_cases hle : alo ≤ ahi
    · exact flmFold_inv a b alo ahi blo bhi (ahi - alo) alo _ (le_refl alo)
        (by omega) hinit hJinit
    · have hz : ahi - alo = 0 := by omega
      rw [hz]
      simpa using hinit
  set F := (List.range' alo (ahi - alo)).foldl (flmStep a b blo bhi)
      ⟨alo, blo, 0, fun _ => 0⟩ with hF
  show BestInv a b alo ahi blo bhi
    ((extendLeft a b alo blo F.besti F.besti F.bestj F.bestsize).1,
     (extendLeft a b alo blo F.besti F.besti F.bestj F.bestsize).2.1,
     extendRight a b ahi bhi
       (extendLeft a b alo blo F.besti F.besti F.bestj F.bestsize).1
       (extendLeft a b alo blo F.besti F.besti F.bestj F.bestsize).2.1 ahi
       (extendLeft a b alo blo F.besti F.besti F.bestj F.bestsize).2.2)
  have hleft := extendLeft_inv a b alo ahi blo bhi F.besti F.besti F.bestj F.bestsize hfold
  exact extendRight_inv a b alo ahi blo bhi
    (extendLeft a b alo blo F.besti F.besti F.bestj F.bestsize).1
    (extendLeft a b alo blo F.besti F.besti F.bestj F.bestsize).2.1 ahi
    (extendLeft a b alo blo F.besti F.besti F.bestj F.bestsize).2.2 hleft

theorem BWF_nil (a b : List Char) (x y X Y : Nat) :
    BWF a b x y [] X Y ↔ x ≤ X ∧ y ≤ Y := Iff.rfl

theorem BWF_cons (a b : List Char) (x y X Y i j k : Nat) (rest : List (Nat × Nat × Nat)) :
    BWF a b x y ((i, j, k) :: rest) X Y ↔
      x ≤ i ∧ y ≤ j ∧ 1 ≤ k ∧ MatchAt a b i j k ∧ BWF a b (i + k) (j + k) rest X Y :=
  Iff.rfl

theorem BWF_mono (a b : List Char) (x' y' x y X Y : Nat) (l : List (Nat × Nat × Nat))
    (hx : x' ≤ x) (hy : y' ≤ y) (h : BWF a b x y l X Y) : BWF a b x' y' l X Y := by
  cases l with
  | nil => exact ⟨le_trans hx h.1, le_trans hy h.2⟩
  | cons hd tl =>
    obtain ⟨i, j, k⟩ := hd
    rw [BWF_cons] at h ⊢
    exact ⟨le_trans hx h.1, le_trans hy h.2.1, h.2.2⟩

theorem BWF_append (a b : List Char) (X Y : Nat) :
    ∀ (l₁ : List (Nat × Nat × Nat)) (x y m₁ m₂ : Nat) (l₂ : List (Nat × Nat × Nat)),
    BWF a b x y l₁ m₁ m₂ → BWF a b m₁ m₂ l₂ X Y → BWF a b x y (l₁ ++ l₂) X Y
  | [], x, y, m₁, m₂, l₂, h₁, h₂ => by
    rw [List.nil_append]
    exact BWF_mono a b x y m₁ m₂ X Y l₂ h₁.1 h₁.2 h₂
  | (i, j, k) :: t, x, y, m₁, m₂, l₂, h₁, h₂ => by
    rw [List.cons_append, BWF_cons]
    rw [BWF_cons] at h₁
    exact ⟨h₁.1, h₁.2.1, h₁.2.2.1, h₁.2.2.2.1,
      BWF_append a b X Y t (i + k) (j + k) m₁ m₂ l₂ h₁.2.2.2.2 h₂⟩

/-- The blocks the recursive rectangle decomposition emits form a
well-formed chain. -/
theorem blocksIn_wf (a b : List Char) :
    ∀ (fuel alo ahi blo bhi : Nat), alo ≤ ahi → blo ≤ bhi →
    BWF a b alo blo (blocksIn a b fuel alo ahi blo bhi) ahi bhi
  | 0, alo, ahi, blo, bhi, h1, h2 => ⟨h1, h2⟩
  | fuel + 1, alo, ahi, blo, bhi, h1, h2 => by
    rw [blocksIn]
    have hspec := findLongestMatch_spec a b alo ahi blo bhi
    obtain ⟨hs1, hs2, hs3, hs4⟩ := hspec
    by_cases hk : (findLongestMatch a b alo ahi blo bhi).2.2 = 0
    · rw [if_pos hk]
      exact ⟨h1, h2⟩
    · rw [if_neg hk]
      obtain ⟨hc1, hc2, hc3⟩ := hs4 hk
      set m := findLongestMatch a b alo ahi blo bhi with hm
      have hmid : BWF a b m.1 m.2.1
          (m :: (if m.1 + m.2.2 < ahi ∧ m.2.1 + m.2.2 < bhi then
            blocksIn a b fuel (m.1 + m.2.2) ahi (m.2.1 + m.2.2) bhi else [])) ahi bhi := by
        have htail : BWF a b (m.1 + m.2.2) (m.2.1 + m.2.2)
            (if m.1 + m.2.2 < ahi ∧ m.2.1 + m.2.2 < bhi then
              blocksIn a b fuel (m.1 + m.2.2) ahi (m.2.1 + m.2.2) bhi else []) ahi bhi := by
          by_cases hg : m.1 + m.2.2 < ahi ∧ m.2.1 + m.2.2 < bhi
          · rw [if_pos hg]
            exact blocksIn_wf a b fuel (m.1 + m.2.2) ahi (m.2.1 + m.2.2) bhi
              (by omega) (by omega)
          · rw [if_neg hg]
            exact ⟨hc1, hc2⟩
        exact ⟨le_refl _, le_refl _, Nat.one_le_iff_ne_zero.mpr hk, hc3, htail⟩
      rw [List.append_assoc, List.singleton_append]
      apply BWF_append a b ahi bhi _ alo blo m.1 m.2.1 _ ?_ hmid
      by_cases hg : alo < m.1 ∧ blo < m.2.1
      · rw [if_pos hg]
        exact blocksIn_wf a b fuel alo m.1 blo m.2.1 (by omega) (by omega)
      · rw [if_neg hg]
        exact ⟨hs1, hs2⟩

/-- The adjacent-block collapse preserves chain well-formedness. -/
theorem collapseGo_wf (a b : List Char) (X Y : Nat) :
    ∀ (blocks : List (Nat × Nat × Nat)) (i1 j1 k1 x y : Nat),
    (k1 ≠ 0 → x ≤ i1 ∧ y ≤ j1 ∧ MatchAt a b i1 j1 k1) →
    (k1 = 0 → x ≤ i1 + k1 ∧ y ≤ j1 + k1) →
    BWF a b (i1 + k1) (j1 + k1) blocks X Y →
    BWF a b x y (collapseGo i1 j1 k1 blocks) X Y
  | [], i1, j1, k1, x, y, hne, hz, hB => by
    rw [collapseGo]
    rw [BWF_nil] at hB
    by_cases hk : k1 = 0
    · rw [if_pos hk]
      obtain ⟨e1, e2⟩ := hz hk
      exact ⟨by omega, by omega⟩
    · rw [if_neg hk]
      obtain ⟨e1, e2, e3⟩ := hne hk
      exact ⟨e1, e2, Nat.one_le_iff_ne_zero.mpr hk, e3, hB⟩
  | (i2, j2, k2) :: rest, i1, j1, k1, x, y, hne, hz, hB => by
    rw [collapseGo]
    rw [BWF_cons] at hB
    obtain ⟨hb1, hb2, hb3, hb4, hb5⟩ := hB
    by_cases hadj : i1 + k1 = i2 ∧ j1 + k1 = j2
    · rw [if_pos hadj]
      apply collapseGo_wf a b X Y rest i1 j1 (k1 + k2) x y
      · intro _
        refine ⟨?_, ?_, ?_⟩
        · by_cases hk : k1 = 0
          · have := hz hk
            omega
          · exact (hne hk).1
        · by_cases hk : k1 = 0
          · have := hz hk
            omega
          · exact (hne hk).2.1
        · have hM1 : MatchAt a b i1 j1 k1 := by
            by_cases hk : k1 = 0
            · subst hk
              exact matchAt_zero a b i1 j1
            · exact (hne hk).2.2
          have hM2 : MatchAt a b (i1 + k1) (j1 + k1) k2 := by
            rw [hadj.1, hadj.2]
            exact hb4
          exact matchAt_append a b i1 j1 k1 k2 hM1 hM2
      · intro h0
        omega
      · have e1 : i1 + (k1 + k2) = i2 + k2 := by omega
        have e2 : j1 + (k1 + k2) = j2 + k2 := by omega
        rw [e1, e2]
        exact hb5
    · rw [if_neg hadj]
      have hrec : BWF a b (i1 + k1) (j1 + k1) (collapseGo i2 j2 k2 rest) X Y := by
        apply collapseGo_wf a b X Y rest i2 j2 k2 (i1 + k1) (j1 + k1)
        · intro _
          exact ⟨hb1, hb2, hb4⟩
        · intro h0
          omega
        · exact hb5
      by_cases hk : k1 = 0
      · rw [if_pos hk]
        rw [List.nil_append]
        obtain ⟨e1, e2⟩ := hz hk
        exact BWF_mono a b x y (i1 + k1) (j1 + k1) X Y _ (by omega) (by omega) hrec
      · rw [if_neg hk]
        rw [List.singleton_append, BWF_cons]
        obtain ⟨e1, e2, e3⟩ := hne hk
        exact ⟨e1, e2, Nat.one_le_iff_ne_zero.mpr hk, e3, hrec⟩

/-- `get_matching_blocks` (sans sentinel) is a well-formed chain over
the whole rectangle. -/
theorem matchingBlocks_wf (a b : List Char) :
    BWF a b 0 0
      (collapseGo 0 0 0 (blocksIn a b (a.length + b.length + 1) 0 a.length 0 b.length))
      a.length b.length := by
  apply collapseGo_wf a b a.length b.length _ 0 0 0 0 0
  · intro h
    exact absurd rfl h
  · intro _
    exact ⟨Nat.zero_le _, Nat.zero_le _⟩
  · simpa using blocksIn_wf a b (a.length + b.length + 1) 0 a.length 0 b.length
      (Nat.zero_le _) (Nat.zero_le _)

theorem BWF_sum (a b : List Char) (X Y : Nat) :
    ∀ (l : List (Nat × Nat × Nat)) (x y : Nat), BWF a b x y l X Y →
    x + ((l.map fun t => t.2.2).sum) ≤ X ∧ y + ((l.map fun t => t.2.2).sum) ≤ Y
  | [], x, y, h => by
    simpa using h
  | (i, j, k) :: t, x, y, h => by
    rw [BWF_cons] at h
    have := BWF_sum a b X Y t (i + k) (j + k) h.2.2.2.2
    simp only [List.map_cons, List.sum_cons]
    omega

/-- Total matched size is bounded by both lengths (the blocks occupy
disjoint stretches of each sequence). -/
theorem totalMatches_le (a b : List Char) :
    totalMatches a b ≤ a.length ∧ totalMatches a b ≤ b.length := by
  unfold totalMatches matchingBlocks
  have h := BWF_sum a b a.length b.length _ 0 0 (matchingBlocks_wf a b)
  simp only [List.map_append, List.sum_append, List.map_cons, List.sum_cons,
    List.map_nil, List.sum_nil] at h ⊢
  omega

theorem BWF_cursor_le (a b : List Char) (X Y : Nat) (l : List (Nat × Nat × Nat))
    (x y : Nat) (h : BWF a b x y l X Y) : x ≤ X ∧ y ≤ Y := by
  have := BWF_sum a b X Y l x y h
  omega

theorem sliceList_same (l : List Char) (x : Nat) : sliceList l x x = [] := by
  simp [sliceList]

theorem sliceList_split (l : List Char) (x y z : Nat) (h1 : x ≤ y) (h2 : y ≤ z) :
    sliceList l x z = sliceList l x y ++ sliceList l y z := by
  unfold sliceList
  have hz : z - x = (y - x) + (z - y) := by omega
  rw [hz, List.take_add, List.drop_drop]
  have hy : x + (y - x) = y := by omega
  rw [hy]

theorem sliceList_length (l : List Char) (x k : Nat) (h : x + k ≤ l.length) :
    (sliceList l x (x + k)).length = k := by
  unfold sliceList
  simp only [List.length_take, List.length_drop]
  omega

/-- A genuine match gives equal slices. -/
theorem matchAt_slice_eq (a b : List Char) (i j k : Nat)
    (hM : MatchAt a b i j k) (ha : i + k ≤ a.length) (hb : j + k ≤ b.length) :
    sliceList a i (i + k) = sliceList b j (j + k) := by
  apply List.ext_getElem
  · rw [sliceList_length a i k ha, sliceList_length b j k hb]
  · intro n h1 h2
    rw [sliceList_length a i k ha] at h1
    have hia : i + n < a.length := by omega
    have hjb : j + n < b.length := by omega
    have hg := hM n h1
    rw [List.getD_eq_getElem a ' ' hia, List.getD_eq_getElem b ' ' hjb] at hg
    unfold sliceList
    simp only [List.getElem_take, List.getElem_drop]
    exact hg

theorem applyDiff_nil (a : List Char) (adds : List (List Char)) :
    applyDiff a [] adds = [] := rfl

theorem applyDiff_cons_equal (a : List Char) (i1 i2 j1 j2 : Nat)
    (ops : List Op) (adds : List (List Char)) :
    applyDiff a (⟨Tag.equal, i1, i2, j1, j2⟩ :: ops) adds =
      sliceList a i1 i2 ++ applyDiff a ops adds := rfl

theorem applyDiff_cons_insert (a : List Char) (i1 i2 j1 j2 : Nat)
    (ops : List Op) (adds : List (List Char)) :
    applyDiff a (⟨Tag.insert, i1, i2, j1, j2⟩ :: ops) adds =
      adds.headD [] ++ applyDiff a ops adds.tail := rfl

theorem applyDiff_cons_delete (a : List Char) (i1 i2 j1 j2 : Nat)
    (ops : List Op) (adds : List (List Char)) :
    applyDiff a (⟨Tag.delete, i1, i2, j1, j2⟩ :: ops) adds =
      applyDiff a ops adds := rfl

theorem insertSpans_nil (b : List Char) : insertSpans b [] = [] := rfl

theorem insertSpans_cons_insert (b : List Char) (i1 i2 j1 j2 : Nat) (ops : List Op) :
    insertSpans b (⟨Tag.insert, i1, i2, j1, j2⟩ :: ops) =
      sliceList b j1 j2 :: insertSpans b ops := rfl

theorem insertSpans_cons_equal (b : List Char) (i1 i2 j1 j2 : Nat) (ops : List Op) :
    insertSpans b (⟨Tag.equal, i1, i2, j1, j2⟩ :: ops) = insertSpans b ops := rfl

theorem insertSpans_cons_delete (b : List Char) (i1 i2 j1 j2 : Nat) (ops : List Op) :
    insertSpans b (⟨Tag.delete, i1, i2, j1, j2⟩ :: ops) = insertSpans b ops := rfl

/-- The reconstruction walk over a well-formed block chain's opcodes
rebuilds `b[y:]`, provided no `replace` opcode occurs (a `replace`
carries spans recorded in neither `added` nor `removed`). -/
theorem opcodes_reconstruct (a b : List Char) :
    ∀ (blocks : List (Nat × Nat × Nat)) (x y : Nat),
    BWF a b x y blocks a.length b.length →
    (∀ op ∈ opcodesGo x y (blocks ++ [(a.length, b.length, 0)]), op.tag ≠ Tag.replace) →
    applyDiff a (opcodesGo x y (blocks ++ [(a.length, b.length, 0)]))
      (insertSpans b (opcodesGo x y (blocks ++ [(a.length, b.length, 0)]))) =
    sliceList b y b.length
  | [], x, y, hB, hnr => by
    rw [BWF_nil] at hB
    rw [List.nil_append] at hnr ⊢
    have hops : opcodesGo x y [(a.length, b.length, 0)] =
        (if x < a.length ∧ y < b.length then
          [⟨Tag.replace, x, a.length, y, b.length⟩]
         else if x < a.length then [⟨Tag.delete, x, a.length, y, b.length⟩]
         else if y < b.length then [⟨Tag.insert, x, a.length, y, b.length⟩]
         else []) := by
      simp only [opcodesGo]
      simp
    rw [hops] at hnr ⊢
    by_cases hxy : x < a.length ∧ y < b.length
    · rw [if_pos hxy] at hnr
      exact absurd rfl (hnr ⟨Tag.replace, x, a.length, y, b.length⟩
        (List.mem_cons_self _ _))
    · rw [if_neg hxy] at hnr ⊢
      by_cases hx : x < a.length
      · rw [if_pos hx] at hnr ⊢
        have hye : y = b.length := by omega
        rw [hye, insertSpans_cons_delete, insertSpans_nil,
          applyDiff_cons_delete, applyDiff_nil, sliceList_same]
      · rw [if_neg hx] at hnr ⊢
        by_cases hy : y < b.length
        · rw [if_pos hy] at hnr ⊢
          rw [insertSpans_cons_insert, insertSpans_nil, applyDiff_cons_insert,
            List.headD_cons, List.tail_cons, applyDiff_nil, List.append_nil]
        · rw [if_neg hy] at hnr ⊢
          have hye : y = b.length := by omega
          rw [hye, insertSpans_nil, applyDiff_nil, sliceList_same]
  | (i, j, k) :: rest, x, y, hB, hnr => by
    rw [BWF_cons] at hB
    obtain ⟨hx, hy, hk, hM, hrest⟩ := hB
    have hcur := BWF_cursor_le a b a.length b.length rest (i + k) (j + k) hrest
    have hsl : sliceList a i (i + k) = sliceList b j (j + k) :=
      matchAt_slice_eq a b i j k hM hcur.1 hcur.2
    have hops : opcodesGo x y (((i, j, k) :: rest) ++ [(a.length, b.length, 0)]) =
        (if x < i ∧ y < j then [⟨Tag.replace, x, i, y, j⟩]
         else if x < i then [⟨Tag.delete, x, i, y, j⟩]
         else if y < j then [⟨Tag.insert, x, i, y, j⟩]
         else []) ++
        (⟨Tag.equal, i, i + k, j, j + k⟩ ::
          opcodesGo (i + k) (j + k) (rest ++ [(a.length, b.length, 0)])) := by
      rw [List.cons_append]
      simp only [opcodesGo]
      rw [if_neg (by omega : ¬ k = 0)]
      rw [List.append_assoc, List.singleton_append]
    rw [hops] at hnr ⊢
    have hnr' : ∀ op ∈ opcodesGo (i + k) (j + k) (rest ++ [(a.length, b.length, 0)]),
        op.tag ≠ Tag.replace := by
      intro op hop
      exact hnr op (List.mem_append_right _ (List.mem_cons_of_mem _ hop))
    have IH := opcodes_reconstruct a b rest (i + k) (j + k) hrest hnr'
    have hsplit : sliceList b j b.length =
        sliceList b j (j + k) ++ sliceList b (j + k) b.length :=
      sliceList_split b j (j + k) b.length (by omega) hcur.2
    by_cases hxy : x < i ∧ y < j
    · rw [if_pos hxy] at hnr
      exact absurd rfl (hnr ⟨Tag.replace, x, i, y, j⟩
        (List.mem_append_left _ (List.mem_cons_self _ _)))
    · rw [if_neg hxy] at hnr ⊢
      by_cases hxi : x < i
      · rw [if_pos hxi] at hnr ⊢
        have hye : y = j := by omega
        rw [hye, List.singleton_append, insertSpans_cons_delete,
          insertSpans_cons_equal, applyDiff_cons_delete, applyDiff_cons_equal,
          hsl, IH, ← hsplit]
      · rw [if_neg hxi] at hnr ⊢
        by_cases hyj : y < j
        · rw [if_pos hyj] at hnr ⊢
          rw [List.singleton_append, insertSpans_cons_insert,
            insertSpans_cons_equal, applyDiff_cons_insert, List.headD_cons,
            List.tail_cons, applyDiff_cons_equal, hsl, IH, ← hsplit,
            ← sliceList_split b y j b.length (by omega)
              (le_trans (by omega) hcur.2)]
        · rw [if_neg hyj] at hnr ⊢
          have hye : y = j := by omega
          rw [hye, List.nil_append, insertSpans_cons_equal,
            applyDiff_cons_equal, hsl, IH, ← hsplit]

theorem seqRatio_nonneg (a b : List Char) : 0 ≤ seqRatio a b := by
  unfold seqRatio
  by_cases h : a.length + b.length = 0
  · rw [if_pos h]
    norm_num
  · rw [if_neg h]
    apply div_nonneg
    · positivity
    · have h1 : (0 : ℚ) ≤ (a.length : ℚ) := Nat.cast_nonneg _
      have h2 : (0 : ℚ) ≤ (b.length : ℚ) := Nat.cast_nonneg _
      linarith

theorem seqRatio_le_one (a b : List Char) : seqRatio a b ≤ 1 := by
  unfold seqRatio
  by_cases h : a.length + b.length = 0
  · rw [if_pos h]
  · rw [if_neg h]
    have hpos : (0 : ℚ) < (a.length : ℚ) + (b.length : ℚ) := by
      have hn : 0 < a.length + b.length := Nat.pos_of_ne_zero h
      exact_mod_cast hn
    rw [div_le_one hpos]
    have hm := totalMatches_le a b
    have : (2 * totalMatches a b : ℚ) ≤ ((a.length : ℚ) + (b.length : ℚ)) := by
      have hq : (2 * totalMatches a b : Nat) ≤ a.length + b.length := by omega
      calc (2 * totalMatches a b : ℚ) = ((2 * totalMatches a b : Nat) : ℚ) := by push_cast; ring
        _ ≤ ((a.length + b.length : Nat) : ℚ) := by exact_mod_cast hq
        _ = (a.length : ℚ) + (b.length : ℚ) := by push_cast; ring
    linarith

/-- Round-trip of `simple_diff`'s spans over the full opcode list. -/
theorem diff_roundtrip_core (a b : List Char)
    (hnr : ∀ op ∈ getOpcodes a b, op.tag ≠ Tag.replace) :
    applyDiff a (getOpcodes a b) (insertSpans b (getOpcodes a b)) = b := by
  have h := opcodes_reconstruct a b
    (collapseGo 0 0 0 (blocksIn a b (a.length + b.length + 1) 0 a.length 0 b.length))
    0 0 (matchingBlocks_wf a b) hnr
  have hslice : sliceList b 0 b.length = b := by
    unfold sliceList
    simp [List.take_length]
  rw [hslice] at h
  exact h

end Difflib

/-!
## Properties of `fuzzy_ratio` and the similarity loop
-/

theorem fuzzy_ratio_both_empty : fuzzy_ratio "" "" = 1 := by decide

theorem fuzzy_ratio_left_empty (b : String) (hb : b ≠ "") : fuzzy_ratio "" b = 0 := by
  unfold fuzzy_ratio
  rw [if_neg (fun h => hb h.2), if_pos (Or.inl rfl)]

theorem fuzzy_ratio_right_empty (a : String) (ha : a ≠ "") : fuzzy_ratio a "" = 0 := by
  unfold fuzzy_ratio
  rw [if_neg (fun h => ha h.1), if_pos (Or.inr rfl)]

theorem fuzzy_ratio_token_empty (a b : String) (ha : a ≠ "") (hb : b ≠ "")
    (h : tokensOf a = ∅ ∨ tokensOf b = ∅) : fuzzy_ratio a b = 0 := by
  unfold fuzzy_ratio
  rw [if_neg (fun hc => ha hc.1), if_neg (fun hc => hc.elim ha hb)]
  dsimp only
  rw [if_pos]
  exact h

theorem fuzzy_ratio_blend (a b : String) (ha : a ≠ "") (hb : b ≠ "")
    (hta : tokensOf a ≠ ∅) (htb : tokensOf b ≠ ∅) :
    fuzzy_ratio a b =
      6/10 * (((tokensOf a ∩ tokensOf b).card : ℚ) /
        ((tokensOf a ∪ tokensOf b).card : ℚ)) +
      4/10 * seqRatio a.data b.data := by
  unfold fuzzy_ratio
  rw [if_neg (fun hc => ha hc.1), if_neg (fun hc => hc.elim ha hb)]
  dsimp only
  rw [if_neg (fun hc => hc.elim hta htb)]
  rfl

theorem tokenScore_nonneg (a b : String) :
    0 ≤ ((tokensOf a ∩ tokensOf b).card : ℚ) / ((tokensOf a ∪ tokensOf b).card : ℚ) := by
  apply div_nonneg <;> exact Nat.cast_nonneg _

theorem tokenScore_le_one (a b : String) (hta : tokensOf a ≠ ∅) :
    ((tokensOf a ∩ tokensOf b).card : ℚ) / ((tokensOf a ∪ tokensOf b).card : ℚ) ≤ 1 := by
  have hunion : 0 < (tokensOf a ∪ tokensOf b).card := by
    rw [Finset.card_pos]
    obtain ⟨x, hx⟩ := Finset.nonempty_iff_ne_empty.mpr hta
    exact ⟨x, Finset.mem_union_left _ hx⟩
  rw [div_le_one (by exact_mod_cast hunion)]
  exact_mod_cast Finset.card_le_card (Finset.inter_subset_union)

theorem fuzzy_ratio_nonneg (a b : String) : 0 ≤ fuzzy_ratio a b := by
  by_cases ha : a = ""
  · by_cases hb : b = ""
    · subst ha; subst hb
      rw [fuzzy_ratio_both_empty]
      norm_num
    · subst ha
      rw [fuzzy_ratio_left_empty b hb]
  · by_cases hb : b = ""
    · subst hb
      rw [fuzzy_ratio_right_empty a ha]
    · by_cases ht : tokensOf a = ∅ ∨ tokensOf b = ∅
      · rw [fuzzy_ratio_token_empty a b ha hb ht]
      · push_neg at ht
        rw [fuzzy_ratio_blend a b ha hb ht.1 ht.2]
        have h1 := tokenScore_nonneg a b
        have h2 := Difflib.seqRatio_nonneg a.data b.data
        linarith

theorem fuzzy_ratio_le_one (a b : String) : fuzzy_ratio a b ≤ 1 := by
  by_cases ha : a = ""
  · by_cases hb : b = ""
    · subst ha; subst hb
      rw [fuzzy_ratio_both_empty]
    · subst ha
      rw [fuzzy_ratio_left_empty b hb]
      norm_num
  · by_cases hb : b = ""
    · subst hb
      rw [fuzzy_ratio_right_empty a ha]
      norm_num
    · by_cases ht : tokensOf a = ∅ ∨ tokensOf b = ∅
      · rw [fuzzy_ratio_token_empty a b ha hb ht]
        norm_num
      · push_neg at ht
        rw [fuzzy_ratio_blend a b ha hb ht.1 ht.2]
        have h1 := tokenScore_le_one a b ht.1
        have h2 := Difflib.seqRatio_le_one a.data b.data
        have h3 := tokenScore_nonneg a b
        have h4 := Difflib.seqRatio_nonneg a.data b.data
        linarith

/-- `fuzzy_ratio` is symmetric whenever the underlying
`SequenceMatcher` ratio is symmetric for the pair (token sets and the
emptiness cases are symmetric unconditionally). -/
theorem fuzzy_ratio_symm_of (a b : String)
    (hs : seqRatio a.data b.data = seqRatio b.data a.data) :
    fuzzy_ratio a b = fuzzy_ratio b a := by
  by_cases ha : a = ""
  · by_cases hb : b = ""
    · subst ha; subst hb; rfl
    · subst ha
      rw [fuzzy_ratio_left_empty b hb, fuzzy_ratio_right_empty b hb]
  · by_cases hb : b = ""
    · subst hb
      rw [fuzzy_ratio_right_empty a ha, fuzzy_ratio_left_empty a ha]
    · by_cases ht : tokensOf a = ∅ ∨ tokensOf b = ∅
      · rw [fuzzy_ratio_token_empty a b ha hb ht,
          fuzzy_ratio_token_empty b a hb ha ht.symm]
      · push_neg at ht
        rw [fuzzy_ratio_blend a b ha hb ht.1 ht.2,
          fuzzy_ratio_blend b a hb ha ht.2 ht.1,
          Finset.inter_comm (tokensOf b) (tokensOf a),
          Finset.union_comm (tokensOf b) (tokensOf a), hs]

/-- `simStep`'s score component is the running maximum. -/
theorem simStep_snd (m : String) (acc : Option String × ℚ) (c : String) :
    (simStep m acc c).2 = max acc.2 (clause_similarity m c) := by
  unfold simStep
  dsimp only
  split_ifs with h
  · exact (max_eq_right h.le).symm
  · exact (max_eq_left (not_lt.mp h)).symm

/-- The final score of the inner loop is the fold of `max` over the
compared similarities. -/
theorem simFold_snd (m : String) :
    ∀ (cl : List String) (acc : Option String × ℚ),
    (cl.foldl (simStep m) acc).2 = (cl.map (clause_similarity m)).foldl max acc.2
  | [], acc => rfl
  | c :: cl, acc => by
    rw [List.foldl_cons, List.map_cons, List.foldl_cons, simFold_snd m cl _,
      simStep_snd]

/-- The best line stays `None` exactly while no compared similarity
strictly exceeds the running best. -/
theorem simFold_none_iff (m : String) :
    ∀ (cl : List String) (bl0 : Option String) (b0 : ℚ),
    (cl.foldl (simStep m) (bl0, b0)).1 = none ↔
      (bl0 = none ∧ ∀ c ∈ cl, clause_similarity m c ≤ b0)
  | [], bl0, b0 => by simp
  | c :: cl, bl0, b0 => by
    rw [List.foldl_cons]
    by_cases h : b0 < clause_similarity m c
    · have hstep : simStep m (bl0, b0) c = (some c, clause_similarity m c) := by
        unfold simStep
        dsimp only
        rw [if_pos h]
      rw [hstep, simFold_none_iff m cl (some c) (clause_similarity m c)]
      constructor
      · rintro ⟨hc, -⟩
        cases hc
      · rintro ⟨-, hall⟩
        exact absurd (hall c (List.mem_cons_self c cl)) (not_le.mpr h)
    · have hstep : simStep m (bl0, b0) c = (bl0, b0) := by
        unfold simStep
        dsimp only
        rw [if_neg h]
      rw [hstep, simFold_none_iff m cl bl0 b0]
      constructor
      · rintro ⟨h1, h2⟩
        refine ⟨h1, fun c' hc' => ?_⟩
        rcases List.mem_cons.mp hc' with hh | ht
        · subst hh
          exact not_lt.mp h
        · exact h2 c' ht
      · rintro ⟨h1, h2⟩
        exact ⟨h1, fun c' hc' => h2 c' (List.mem_cons_of_mem c hc')⟩

/-- When the inner loop ends on `Some c`, either the initial candidate
survived unbeaten, or `c` is the first compared line strictly exceeding
the initial best, attains the final score, and strictly beats every
earlier line. -/
theorem simFold_some (m : String) :
    ∀ (cl : List String) (bl0 : Option String) (b0 : ℚ) (c : String),
    (cl.foldl (simStep m) (bl0, b0)).1 = some c →
    (bl0 = some c ∧ (cl.foldl (simStep m) (bl0, b0)).2 = b0 ∧
      ∀ c' ∈ cl, clause_similarity m c' ≤ b0) ∨
    (∃ pre post, cl = pre ++ c :: post ∧
      clause_similarity m c = (cl.foldl (simStep m) (bl0, b0)).2 ∧
      b0 < clause_similarity m c ∧
      ∀ c' ∈ pre, clause_similarity m c' < clause_similarity m c)
  | [], bl0, b0, c, hc => Or.inl ⟨hc, rfl, fun c' hc' => absurd hc' (List.not_mem_nil c')⟩
  | h :: cl, bl0, b0, c, hc => by
    rw [List.foldl_cons] at hc ⊢
    by_cases hlt : b0 < clause_similarity m h
    · have hstep : simStep m (bl0, b0) h = (some h, clause_similarity m h) := by
        unfold simStep
        dsimp only
        rw [if_pos hlt]
      rw [hstep] at hc ⊢
      rcases simFold_some m cl (some h) (clause_similarity m h) c hc with
        ⟨h1, h2, h3⟩ | ⟨pre, post, he, h2, h3, h4⟩
      · right
        have heq : h = c := by
          injection h1
        subst heq
        exact ⟨[], cl, rfl, h2.symm, hlt, fun c' hc' => absurd hc' (List.not_mem_nil c')⟩
      · right
        refine ⟨h :: pre, post, by rw [he, List.cons_append], h2, lt_trans hlt h3, ?_⟩
        intro c' hc'
        rcases List.mem_cons.mp hc' with hh | ht
        · subst hh
          exact h3
        · exact h4 c' ht
    · have hstep : simStep m (bl0, b0) h = (bl0, b0) := by
        unfold simStep
        dsimp only
        rw [if_neg hlt]
      rw [hstep] at hc ⊢
      rcases simFold_some m cl bl0 b0 c hc with
        ⟨h1, h2, h3⟩ | ⟨pre, post, he, h2, h3, h4⟩
      · left
        refine ⟨h1, h2, fun c' hc' => ?_⟩
        rcases List.mem_cons.mp hc' with hh | ht
        · subst hh
          exact not_lt.mp hlt
        · exact h3 c' ht
      · right
        refine ⟨h :: pre, post, by rw [he, List.cons_append], h2, h3, ?_⟩
        intro c' hc'
        rcases List.mem_cons.mp hc' with hh | ht
        · subst hh
          exact lt_of_le_of_lt (not_lt.mp hlt) h3
        · exact h4 c' ht

/-!
## The extra-documents dictionary
-/

theorem lookup_append {α : Type} (k : String) :
    ∀ (l₁ l₂ : List (String × α)),
    List.lookup k (l₁ ++ l₂) =
      (match List.lookup k l₁ with
       | some v => some v
       | none => List.lookup k l₂)
  | [], l₂ => rfl
  | (k₁, v₁) :: l₁, l₂ => by
    rw [List.cons_append]
    by_cases h : k = k₁
    · simp [List.lookup, h]
    · have hne : (k == k₁) = false := beq_eq_false_iff_ne.mpr h
      simp only [List.lookup, hne]
      exact lookup_append k l₁ l₂

theorem lookup_map_replace_ne {α : Type} (v : α) (k' k : String) (h : k ≠ k') :
    ∀ (m : List (String × α)),
    List.lookup k (m.map (fun p => if p.1 = k' then (k', v) else p)) = List.lookup k m
  | [] => rfl
  | (k₁, v₁) :: m => by
    rw [List.map_cons]
    by_cases h₁ : k₁ = k'
    · rw [if_pos h₁]
      have hne : (k == k') = false := beq_eq_false_iff_ne.mpr h
      have hne₁ : (k == k₁) = false := beq_eq_false_iff_ne.mpr (h₁ ▸ h)
      simp only [List.lookup, hne, hne₁]
      exact lookup_map_replace_ne v k' k h m
    · rw [if_neg h₁]
      by_cases hk : k = k₁
      · simp [List.lookup, hk]
      · have hne₁ : (k == k₁) = false := beq_eq_false_iff_ne.mpr hk
        simp only [List.lookup, hne₁]
        exact lookup_map_replace_ne v k' k h m

theorem lookup_map_replace_self {α : Type} (v : α) (k' : String) :
    ∀ (m : List (String × α)), m.any (fun p => p.1 = k') = true →
    List.lookup k' (m.map (fun p => if p.1 = k' then (k', v) else p)) = some v
  | [], h => by cases h
  | (k₁, v₁) :: m, h => by
    rw [List.map_cons]
    by_cases h₁ : k₁ = k'
    · rw [if_pos h₁]
      simp [List.lookup]
    · rw [if_neg h₁]
      have hne : (k' == k₁) = false := beq_eq_false_iff_ne.mpr (fun he => h₁ he.symm)
      simp only [List.lookup, hne]
      apply lookup_map_replace_self v k' m
      simp only [List.any_cons, decide_eq_true_eq, Bool.or_eq_true] at h
      rcases h with h | h
      · exact absurd h h₁
      · exact h

/-- Lookup after `d[k'] = v`: the inserted key reads back `v`, other
keys are unchanged. -/
theorem alookup_dictInsert {α : Type} (m : List (String × α)) (k' k : String) (v : α) :
    alookup (dictInsert m k' v) k = if k = k' then some v else alookup m k := by
  unfold dictInsert alookup
  by_cases hany : m.any (fun p => p.1 = k') = true
  · rw [if_pos hany]
    by_cases hk : k = k'
    · rw [if_pos hk, hk]
      exact lookup_map_replace_self v k' m hany
    · rw [if_neg hk]
      exact lookup_map_replace_ne v k' k hk m
  · rw [if_neg hany]
    rw [lookup_append]
    by_cases hk : k = k'
    · rw [if_pos hk]
      have hnone : List.lookup k m = none := by
        subst hk
        induction m with
        | nil => rfl
        | cons p m ih =>
          simp only [List.any_cons, Bool.or_eq_true, decide_eq_true_eq] at hany
          push_neg at hany
          have hne : (k == p.1) = false := beq_eq_false_iff_ne.mpr (fun he => hany.1 he.symm)
          obtain ⟨p₁, p₂⟩ := p
          simp only [List.lookup, hne]
          exact ih (by simpa using hany.2)
      rw [hnone, hk]
      simp [List.lookup]
    · rw [if_neg hk]
      have htail : List.lookup k [(k', v)] = none := by
        have hne : (k == k') = false := beq_eq_false_iff_ne.mpr hk
        simp [List.lookup, hne]
      rw [htail]
      cases List.lookup k m <;> rfl

theorem dictInsert_length {α : Type} (m : List (String × α)) (k : String) (v : α) :
    (dictInsert m k v).length ≤ m.length + 1 := by
  unfold dictInsert
  by_cases h : m.any (fun p => p.1 = k) = true
  · rw [if_pos h, List.length_map]
    omega
  · rw [if_neg h, List.length_append]
    simp

/-- Folding `dictInsert` over an indexed list: a key reads back the
value of the last element bearing it (later documents overwrite
earlier ones), falling back to the initial dictionary. -/
theorem foldl_dictInsert_lookup {α σ : Type} (key : σ → String) (val : σ → α) :
    ∀ (l : List σ) (m : List (String × α)) (k : String),
    alookup (l.foldl (fun acc s => dictInsert acc (key s) (val s)) m) k =
      (match (l.filter (fun s => key s == k)).getLast? with
       | some s => some (val s)
       | none => alookup m k)
  | [], m, k => rfl
  | s :: l, m, k => by
    rw [List.foldl_cons, List.filter_cons]
    by_cases hk : key s == k
    · rw [if_pos hk]
      rw [foldl_dictInsert_lookup key val l (dictInsert m (key s) (val s)) k]
      cases hfl : List.filter (fun s => key s == k) l with
      | nil =>
        rw [alookup_dictInsert m (key s) k (val s),
          if_pos (beq_iff_eq.mp hk).symm]
        rfl
      | cons x xs =>
        rw [List.getLast?_cons_cons]
        cases hgl : (x :: xs).getLast? with
        | none => simp at hgl
        | some y => rfl
    · rw [if_neg hk]
      rw [foldl_dictInsert_lookup key val l (dictInsert m (key s) (val s)) k]
      cases hfl : List.filter (fun s => key s == k) l with
      | nil =>
        rw [alookup_dictInsert m (key s) k (val s),
          if_neg (fun he => hk (beq_iff_eq.mpr he.symm))]
      | cons x xs =>
        cases hgl : (x :: xs).getLast? with
        | none => simp at hgl
        | some y => rfl

theorem foldl_dictInsert_length {α σ : Type} (key : σ → String) (val : σ → α) :
    ∀ (l : List σ) (m : List (String × α)),
    (l.foldl (fun acc s => dictInsert acc (key s) (val s)) m).length ≤
      m.length + l.length
  | [], m => by simp
  | s :: l, m => by
    rw [List.foldl_cons]
    have h1 := foldl_dictInsert_length key val l (dictInsert m (key s) (val s))
    have h2 := dictInsert_length m (key s) (val s)
    simp only [List.length_cons]
    omega

/-!
## Normalization helpers
-/

theorem normalizeText_of_strip (t : String) (h : pyStrip t = "") :
    normalizeText t = "" := by
  unfold normalizeText
  rw [if_pos h]

theorem normalizeText_empty : normalizeText "" = "" := by decide

/-!
## `re.findall` for fixed-width class patterns
-/

theorem patMatchAt_false_of_ge (t : List Char) (pat : List (Char → Bool))
    (hw : 0 < pat.length) (p : Nat) (hp : t.length ≤ p) :
    patMatchAt t p pat = false := by
  unfold patMatchAt
  rw [List.drop_eq_nil_of_le hp]
  cases pat with
  | nil => simp at hw
  | cons cl cls =>
    show (_ && _ && classesMatch (cl :: cls) []) = false
    rw [show classesMatch (cl :: cls) [] = false from rfl]
    simp

/-- Specification of the left-to-right, non-overlapping `findall` scan:
with enough fuel, the output is the list of matched slices at an
ascending sequence of positions `ps`; consecutive matches do not
overlap; every position in `ps` genuinely matches; and every matching
position at or after the scan start overlaps some reported match. -/
theorem findallFixed_spec (pat : List (Char → Bool)) (hw : 0 < pat.length) (t : List Char) :
    ∀ (fuel p0 : Nat), t.length < p0 + fuel →
    ∃ ps : List Nat,
      findallFixed pat t fuel p0 = ps.map (fun p => sliceList t p (p + pat.length)) ∧
      (∀ p ∈ ps, p0 ≤ p ∧ patMatchAt t p pat = true) ∧
      List.Chain' (fun p q => p + pat.length ≤ q) ps ∧
      (∀ p, p0 ≤ p → patMatchAt t p pat = true → ∃ q ∈ ps, q ≤ p ∧ p < q + pat.length)
  | 0, p0, hfuel => by
    refine ⟨[], rfl, ?_, List.chain'_nil, ?_⟩
    · intro p hp
      cases hp
    · intro p hp hm
      rw [patMatchAt_false_of_ge t pat hw p (by omega)] at hm
      cases hm
  | fuel + 1, p0, hfuel => by
    rw [findallFixed]
    by_cases hstop : t.length ≤ p0
    · rw [if_pos hstop]
      refine ⟨[], rfl, ?_, List.chain'_nil, ?_⟩
      · intro p hp
        cases hp
      · intro p hp hm
        rw [patMatchAt_false_of_ge t pat hw p (by omega)] at hm
        cases hm
    · rw [if_neg hstop]
      by_cases hm0 : patMatchAt t p0 pat = true
      · rw [if_pos hm0]
        obtain ⟨ps, h1, h2, h3, h4⟩ :=
          findallFixed_spec pat hw t fuel (p0 + pat.length) (by omega)
        refine ⟨p0 :: ps, ?_, ?_, ?_, ?_⟩
        · rw [List.map_cons, h1]
        · intro p hp
          rcases List.mem_cons.mp hp with h | h
          · subst h
            exact ⟨le_refl _, hm0⟩
          · exact ⟨by have := (h2 p h).1; omega, (h2 p h).2⟩
        · rw [List.chain'_cons']
          refine ⟨?_, h3⟩
          intro q hq
          exact (h2 q (List.mem_of_mem_head? hq)).1
        · intro p hp hm
          by_cases hlt : p < p0 + pat.length
          · exact ⟨p0, List.mem_cons_self _ _, hp, hlt⟩
          · obtain ⟨q, hq1, hq2, hq3⟩ := h4 p (by omega) hm
            exact ⟨q, List.mem_cons_of_mem _ hq1, hq2, hq3⟩
      · rw [if_neg hm0]
        obtain ⟨ps, h1, h2, h3, h4⟩ :=
          findallFixed_spec pat hw t fuel (p0 + 1) (by omega)
        refine ⟨ps, h1, ?_, h3, ?_⟩
        · intro p hp
          exact ⟨by have := (h2 p hp).1; omega, (h2 p hp).2⟩
        · intro p hp hm
          by_cases hp0 : p = p0
          · subst hp0
            exact absurd hm hm0
          · exact h4 p (by omega) hm

/-!
## Concrete score computations (the rational arithmetic is settled by
`norm_num`; the combinatorial parts by kernel evaluation)
-/

theorem seqRatio_eq (a b : List Char) (h : ¬(a.length + b.length = 0)) :
    seqRatio a b =
      2 * (totalMatches a b : ℚ) / ((a.length : ℚ) + (b.length : ℚ)) := by
  unfold seqRatio
  rw [if_neg h]

theorem fuzzy_ratio_zero_of (a b : String) (ha : a ≠ "") (hb : b ≠ "")
    (hta : tokensOf a ≠ ∅) (htb : tokensOf b ≠ ∅)
    (hint : (tokensOf a ∩ tokensOf b).card = 0)
    (hM : totalMatches a.data b.data = 0)
    (hlen : ¬(a.data.length + b.data.length = 0)) : fuzzy_ratio a b = 0 := by
  rw [fuzzy_ratio_blend a b ha hb hta htb, hint,
    seqRatio_eq a.data b.data hlen, hM]
  simp only [Nat.cast_zero, zero_div, mul_zero, add_zero]

theorem sim_a_b_zero : clause_similarity "a" "b" = 0 :=
  fuzzy_ratio_zero_of "a" "b" (by decide) (by decide) (by decide) (by decide)
    (by decide) (by decide) (by decide)

theorem sim_a_c_zero : clause_similarity "a" "c" = 0 :=
  fuzzy_ratio_zero_of "a" "c" (by decide) (by decide) (by decide) (by decide)
    (by decide) (by decide) (by decide)

theorem bestMatch_a_b : bestMatchFor "a" ["b"] = (none, 0) := by
  unfold bestMatchFor
  rw [List.foldl_cons, List.foldl_nil]
  unfold simStep
  dsimp only
  rw [sim_a_b_zero, if_neg (lt_irrefl 0)]

theorem bestMatch_a_bc : bestMatchFor "a" ["b", "c"] = (none, 0) := by
  unfold bestMatchFor
  rw [List.foldl_cons]
  have h1 : simStep "a" (none, 0) "b" = (none, 0) := by
    unfold simStep
    dsimp only
    rw [sim_a_b_zero, if_neg (lt_irrefl 0)]
  rw [h1, List.foldl_cons, List.foldl_nil]
  unfold simStep
  dsimp only
  rw [sim_a_c_zero, if_neg (lt_irrefl 0)]

/-- The similarity samples, unfolded to the per-line best-match loop. -/
theorem samples_eq (v : Validator) (panF gstF : String → List String)
    (mt ct : String) (dts dns : List String) :
    (validateTexts v panF gstF mt ct dts dns).clause_similarity_samples =
      (mainsOf mt).map (fun m =>
        ⟨m, (bestMatchFor m (clientsOf ct)).1, (bestMatchFor m (clientsOf ct)).2⟩) := rfl

theorem le_foldl_max (l : List ℚ) : ∀ b : ℚ, b ≤ l.foldl max b ∧ ∀ x ∈ l, x ≤ l.foldl max b := by
  induction l with
  | nil =>
    intro b
    exact ⟨le_refl b, fun x hx => absurd hx (List.not_mem_nil x)⟩
  | cons c l ih =>
    intro b
    rw [List.foldl_cons]
    obtain ⟨h1, h2⟩ := ih (max b c)
    refine ⟨le_trans (le_max_left b c) h1, fun x hx => ?_⟩
    rcases List.mem_cons.mp hx with h | h
    · subst h
      exact le_trans (le_max_right b x) h1
    · exact h2 x h

theorem foldl_max_le (l : List ℚ) : ∀ (b c : ℚ), b ≤ c → (∀ x ∈ l, x ≤ c) →
    l.foldl max b ≤ c := by
  induction l with
  | nil =>
    intro b c hb _
    exact hb
  | cons a l ih =>
    intro b c hb hall
    rw [List.foldl_cons]
    exact ih (max b a) c (max_le hb (hall a (List.mem_cons_self a l)))
      (fun x hx => hall x (List.mem_cons_of_mem a hx))

theorem getD_map_lt {α β : Type} (f : α → β) (l : List α) (i : Nat)
    (h : i < l.length) (d : β) (e : α) : (l.map f).getD i d = f (l.getD i e) := by
  rw [List.getD_eq_getElem _ d (by simpa using h), List.getD_eq_getElem _ e h,
    List.getElem_map]

end Validation

namespace Validation

open Difflib

/-!
## The claims
-/

/-- C1, counterexample: the similarity scorer is not symmetric —
`fuzzy_ratio("aba", "babba") = 3/10` but `fuzzy_ratio("babba", "aba") =
1/5`, because `SequenceMatcher`'s greedy tie-breaking matches 3
characters in one direction and only 2 in the other. -/
theorem claim_C1_counterexample :
    fuzzy_ratio "aba" "babba" ≠ fuzzy_ratio "babba" "aba" := by
  have h1 : fuzzy_ratio "aba" "babba" = 3/10 := by
    rw [fuzzy_ratio_blend "aba" "babba" (by decide) (by decide) (by decide) (by decide),
      show (tokensOf "aba" ∩ tokensOf "babba").card = 0 from by decide,
      show (tokensOf "aba" ∪ tokensOf "babba").card = 2 from by decide,
      seqRatio_eq _ _ (by decide),
      show totalMatches "aba".data "babba".data = 3 from by decide,
      show ("aba".data.length) = 3 from by decide,
      show ("babba".data.length) = 5 from by decide]
    norm_num
  have h2 : fuzzy_ratio "babba" "aba" = 1/5 := by
    rw [fuzzy_ratio_blend "babba" "aba" (by decide) (by decide) (by decide) (by decide),
      show (tokensOf "babba" ∩ tokensOf "aba").card = 0 from by decide,
      show (tokensOf "babba" ∪ tokensOf "aba").card = 2 from by decide,
      seqRatio_eq _ _ (by decide),
      show totalMatches "babba".data "aba".data = 2 from by decide,
      show ("babba".data.length) = 5 from by decide,
      show ("aba".data.length) = 3 from by decide]
    norm_num
  rw [h1, h2]
  norm_num

/-- C1, amended: the score is symmetric whenever the underlying
character-sequence ratio is symmetric for the pair (the token-Jaccard
component and the empty-string cases are symmetric unconditionally);
full symmetry fails in general because `SequenceMatcher(None, a,
b).ratio()` is order-sensitive. -/
theorem claim_C1_amended :
    ∀ a b : String, seqRatio a.data b.data = seqRatio b.data a.data →
    fuzzy_ratio a b = fuzzy_ratio b a :=
  fun a b h => fuzzy_ratio_symm_of a b h

/-- C1, witness: a pair whose sequence ratio is symmetric, where the
score is therefore symmetric. -/
theorem claim_C1_witness : fuzzy_ratio "ab" "ba" = fuzzy_ratio "ba" "ab" :=
  claim_C1_amended "ab" "ba" (by
    rw [seqRatio_eq _ _ (by decide), seqRatio_eq _ _ (by decide),
      show totalMatches "ab".data "ba".data = 1 from by decide,
      show totalMatches "ba".data "ab".data = 1 from by decide,
      show ("ab".data.length) = 2 from by decide,
      show ("ba".data.length) = 2 from by decide])

/-- C2, counterexample: for the non-empty inputs `" "` and `" x"` the
code returns `0.0` (the first token set is empty, and the early
`return 0.0` skips the sequence-ratio term), while the claimed blend
`0.6 * tokenJaccard + 0.4 * sequenceRatio` evaluates to `4/15`. -/
theorem claim_C2_counterexample :
    (" " : String) ≠ "" ∧ (" x" : String) ≠ "" ∧
    fuzzy_ratio " " " x" = 0 ∧ blendClaim " " " x" = 4/15 ∧
    fuzzy_ratio " " " x" ≠ blendClaim " " " x" := by
  have hz : fuzzy_ratio " " " x" = 0 :=
    fuzzy_ratio_token_empty " " " x" (by decide) (by decide) (Or.inl (by decide))
  have hblend : blendClaim " " " x" = 4/15 := by
    unfold blendClaim tokenJaccardClaim
    rw [if_pos (Or.inl (by decide : tokensOf " " = ∅)),
      seqRatio_eq _ _ (by decide),
      show totalMatches " ".data " x".data = 1 from by decide,
      show (" ".data.length) = 1 from by decide,
      show (" x".data.length) = 2 from by decide]
    norm_num
  refine ⟨by decide, by decide, hz, hblend, ?_⟩
  rw [hz, hblend]
  norm_num

/-- C2, amended: the scorer's full contract with the whitespace-only
case corrected — both empty gives `1.0`; exactly one empty gives `0.0`;
both non-empty with either lower-cased token set empty gives `0.0`
(the sequence-ratio term is skipped, unlike the blend the claim
states); both non-empty with both token sets non-empty gives
`0.6 * tokenJaccard + 0.4 * sequenceRatio`; and the result always lies
in `[0, 1]`. -/
theorem claim_C2_amended :
    fuzzy_ratio "" "" = 1 ∧
    (∀ a b : String, (a = "" ∧ b ≠ "") ∨ (a ≠ "" ∧ b = "") → fuzzy_ratio a b = 0) ∧
    (∀ a b : String, a ≠ "" → b ≠ "" → tokensOf a = ∅ ∨ tokensOf b = ∅ →
      fuzzy_ratio a b = 0) ∧
    (∀ a b : String, a ≠ "" → b ≠ "" → tokensOf a ≠ ∅ → tokensOf b ≠ ∅ →
      fuzzy_ratio a b =
        6/10 * (((tokensOf a ∩ tokensOf b).card : ℚ) /
          ((tokensOf a ∪ tokensOf b).card : ℚ)) +
        4/10 * seqRatio a.data b.data) ∧
    (∀ a b : String, 0 ≤ fuzzy_ratio a b ∧ fuzzy_ratio a b ≤ 1) := by
  refine ⟨fuzzy_ratio_both_empty, ?_, fuzzy_ratio_token_empty, fuzzy_ratio_blend,
    fun a b => ⟨fuzzy_ratio_nonneg a b, fuzzy_ratio_le_one a b⟩⟩
  intro a b h
  rcases h with ⟨ha, hb⟩ | ⟨ha, hb⟩
  · subst ha
    exact fuzzy_ratio_left_empty b hb
  · subst hb
    exact fuzzy_ratio_right_empty a ha

/-- C2, witness: the empty-side and whitespace-only cases at concrete
inputs. -/
theorem claim_C2_witness : fuzzy_ratio "x" "" = 0 ∧ fuzzy_ratio " " "x" = 0 :=
  ⟨claim_C2_amended.2.1 "x" "" (Or.inr ⟨by decide, rfl⟩),
   claim_C2_amended.2.2.1 " " "x" (by decide) (by decide) (Or.inl (by decide))⟩

/-- C3, counterexample: `simple_diff("x", "y")` is `{added: [],
removed: []}` — the single `replace` opcode's spans are recorded in
neither list — so applying the (empty) insertions and removals to `"x"`
cannot reconstruct `"y"`. -/
theorem claim_C3_counterexample :
    simple_diff "x" "y" = ⟨[], []⟩ ∧ ("x" : String) ≠ "y" :=
  ⟨by decide, by decide⟩

/-- C3, amended: whenever the opcode sequence contains no `replace`
opcode, walking the opcodes over `a` — keeping `equal` spans, splicing
the recorded `added` spans at `insert` opcodes and dropping `delete`
spans — reconstructs `b` exactly; `replace` opcodes carry spans that
appear in neither `added` nor `removed`, so the round-trip fails for
them. -/
theorem claim_C3_amended :
    ∀ a b : String,
    (∀ op ∈ getOpcodes a.data b.data, op.tag ≠ Tag.replace) →
    applyDiff a.data (getOpcodes a.data b.data)
      ((simple_diff a b).added.map String.data) = b.data := by
  intro a b hnr
  have hadd : (simple_diff a b).added.map String.data =
      insertSpans b.data (getOpcodes a.data b.data) := by
    show ((insertSpans b.data (getOpcodes a.data b.data)).map String.mk).map
      String.data = _
    rw [List.map_map]
    rw [show String.data ∘ String.mk = id from funext (fun l => rfl), List.map_id]
  rw [hadd]
  exact diff_roundtrip_core a.data b.data hnr

/-- C3, witness: a replace-free diff (`"ab"` → `"axb"`) where the
reconstruction rebuilds `b`. -/
theorem claim_C3_witness :
    applyDiff "ab".data (getOpcodes "ab".data "axb".data)
      ((simple_diff "ab" "axb").added.map String.data) = "axb".data :=
  claim_C3_amended "ab" "axb" (by decide)

/-- C4, counterexample: a configuration that binds `pan_regex` to the
integer `5` makes `re.compile(5)` raise `TypeError`, which the
`except re.error` clause does not catch — construction fails, refuting
"construction always succeeding" for every configuration input. -/
theorem claim_C4_counterexample :
    initValidator (ConfigSrc.doc [("pan_regex", YVal.yint 5)]) =
      Except.error PyErr.typeError := rfl

/-- C4, amended: a missing or unparseable configuration file silently
yields the built-in defaults, and an invalid configured regex pattern
string is silently replaced by the corresponding built-in default
pattern; construction succeeds for every configuration mapping whose
supplied values are well-typed (string patterns, string-list keyword
lists, numeric threshold), but a non-string pattern value aborts
construction with an uncaught `TypeError`. -/
theorem claim_C4_amended :
    initValidator ConfigSrc.missing = Except.ok defaultValidator ∧
    initValidator ConfigSrc.unparseable = Except.ok defaultValidator ∧
    (∀ (cfg : List (String × YVal)) (ps gs : String) (cs rs : List String) (thr : ℚ),
      patternOf (alookup (dictUpdate DEFAULT_CONFIG cfg) "pan_regex") = YVal.ystr ps →
      patternOf (alookup (dictUpdate DEFAULT_CONFIG cfg) "gst_regex") = YVal.ystr gs →
      lowerKeywords (alookup (dictUpdate DEFAULT_CONFIG cfg) "coi_keywords") =
        Except.ok cs →
      lowerKeywords (alookup (dictUpdate DEFAULT_CONFIG cfg) "ratecard_keywords") =
        Except.ok rs →
      pyFloat ((alookup (dictUpdate DEFAULT_CONFIG cfg) "similarity_threshold").getD
        (YVal.ynum (75/100))) = Except.ok thr →
      initValidator (ConfigSrc.doc cfg) =
        Except.ok ⟨(if reOk ps then ps else panDefaultPattern),
                   (if reOk gs then gs else gstDefaultPattern), cs, rs, thr⟩) := by
  refine ⟨rfl, rfl, ?_⟩
  intro cfg ps gs cs rs thr hp hg hc hr ht
  unfold initValidator
  dsimp only
  rw [hp, hg, hc, hr, ht]
  rfl

/-- C4, witness: an invalid pattern string `"("` raises `re.error`
inside the constructor and is replaced by the default PAN pattern;
construction succeeds with the default state. -/
theorem claim_C4_witness :
    initValidator (ConfigSrc.doc [("pan_regex", YVal.ystr "(")]) =
      Except.ok defaultValidator := by
  have h := claim_C4_amended.2.2 [("pan_regex", YVal.ystr "(")] "(" gstDefaultPattern
    ["certificate of incorporation", "incorporation certificate"]
    ["rate card", "rate-card", "price list"] (75/100) rfl rfl rfl rfl rfl
  rw [h, show reOk "(" = false from by decide,
    show reOk gstDefaultPattern = true from by decide]
  rfl

/-- C7, counterexample: the keyword check tests the keyword's exact
form, not its lowercase form — `keyword_check("a", ["A"])` returns `[]`
although the lowercase form `"a"` occurs in the lower-cased text, so the
claim's lowercase-form criterion fails for non-lowercase keyword
lists. -/
theorem claim_C7_counterexample :
    keyword_check "a" ["A"] = [] ∧
    pyContains (pyLower "a").data (pyLower "A").data = true :=
  ⟨by decide, by decide⟩

/-- C7, amended: the keyword check returns, preserving order, the
keywords of the list whose exact form occurs as a substring of the
lower-cased text; for a keyword list lower-cased at construction (as
`AgreementValidator.__init__` does) this coincides with the
lowercase-form criterion, the returned entries being the lowercase
forms; the rate-card examples hold. -/
theorem claim_C7_amended :
    (∀ (text : String) (kws : List String),
      keyword_check text kws =
        kws.filter (fun k => pyContains (pyLower text).data k.data)) ∧
    (∀ (text : String) (kws : List String),
      keyword_check text (kws.map pyLower) =
        (kws.filter (fun k => pyContains (pyLower text).data (pyLower k).data)).map
          pyLower) ∧
    (∀ text : String, pyContains (pyLower text).data "rate card".data = true →
      keyword_check text ["rate card"] = ["rate card"]) ∧
    (∀ text : String, pyContains (pyLower text).data "rate card".data = false →
      keyword_check text ["rate card"] = []) := by
  refine ⟨fun text kws => rfl, ?_, ?_, ?_⟩
  · intro text kws
    show (kws.map pyLower).filter (fun k => pyContains (pyLower text).data k.data) = _
    rw [List.filter_map]
    rfl
  · intro text h
    show List.filter (fun k => pyContains (pyLower text).data k.data) ["rate card"] = _
    rw [List.filter_cons, List.filter_nil, h]
    rfl
  · intro text h
    show List.filter (fun k => pyContains (pyLower text).data k.data) ["rate card"] = _
    rw [List.filter_cons, List.filter_nil, h]
    rfl

/-- C7, witness: a text containing `"Rate Card"` in mixed case matches
the lowercase keyword. -/
theorem claim_C7_witness : keyword_check "The Rate Card here" ["rate card"] =
    ["rate card"] :=
  claim_C7_amended.2.2.1 "The Rate Card here" (by decide)

/-- C8: identifier extraction — empty text yields two empty sequences
without consulting either compiled pattern (the guard short-circuits for
every `findall` semantics); non-empty text applies each pattern's
`findall`; the default-pattern `findall`s return exactly the matched
slices at an ascending sequence of non-overlapping positions (first
appearance order, duplicates kept), every reported position genuinely
matches, and every matching position overlaps a reported one; the
concrete PAN example holds. -/
theorem claim_C8 :
    (∀ panF gstF : String → List String, searchPanGst panF gstF "" = ([], [])) ∧
    (∀ text : String, text ≠ "" →
      searchPanGst panFindall gstFindall text = (panFindall text, gstFindall text)) ∧
    (∀ s : String, ∃ ps : List Nat,
      panFindall s = ps.map (fun p => String.mk (sliceList s.data p (p + 10))) ∧
      (∀ p ∈ ps, patMatchAt s.data p panClasses = true) ∧
      List.Chain' (fun p q => p + 10 ≤ q) ps ∧
      (∀ p, patMatchAt s.data p panClasses = true →
        ∃ q ∈ ps, q ≤ p ∧ p < q + 10)) ∧
    (∀ s : String, ∃ ps : List Nat,
      gstFindall s = ps.map (fun p => String.mk (sliceList s.data p (p + 15))) ∧
      (∀ p ∈ ps, patMatchAt s.data p gstClasses = true) ∧
      List.Chain' (fun p q => p + 15 ≤ q) ps ∧
      (∀ p, patMatchAt s.data p gstClasses = true →
        ∃ q ∈ ps, q ≤ p ∧ p < q + 15)) ∧
    searchPanGst panFindall gstFindall "ABCDE1234F is the PAN" =
      (["ABCDE1234F"], []) := by
  refine ⟨fun panF gstF => rfl, ?_, ?_, ?_, by decide⟩
  · intro text h
    unfold searchPanGst
    rw [if_neg h]
  · intro s
    obtain ⟨ps, h1, h2, h3, h4⟩ :=
      findallFixed_spec panClasses (by decide) s.data (s.data.length + 1) 0 (by omega)
    simp only [show panClasses.length = 10 from rfl] at h1 h3 h4
    refine ⟨ps, ?_, fun p hp => (h2 p hp).2, h3, fun p hm => h4 p (Nat.zero_le p) hm⟩
    unfold panFindall
    rw [h1, List.map_map]
    rfl
  · intro s
    obtain ⟨ps, h1, h2, h3, h4⟩ :=
      findallFixed_spec gstClasses (by decide) s.data (s.data.length + 1) 0 (by omega)
    simp only [show gstClasses.length = 15 from rfl] at h1 h3 h4
    refine ⟨ps, ?_, fun p hp => (h2 p hp).2, h3, fun p hm => h4 p (Nat.zero_le p) hm⟩
    unfold gstFindall
    rw [h1, List.map_map]
    rfl

/-- C8, witness: a non-empty text consults both patterns' `findall`. -/
theorem claim_C8_witness :
    searchPanGst panFindall gstFindall "ABCDE1234F is the PAN" =
      (panFindall "ABCDE1234F is the PAN", gstFindall "ABCDE1234F is the PAN") :=
  claim_C8.2.1 "ABCDE1234F is the PAN" (by decide)

/-- C5, counterexample: with main line `"a"` and client lines
`["b", "c"]` every similarity is `0`, so the maximum over the client
lines is `0` and the first client line `"b"` attains it — yet the
recorded best match is `None`, not `"b"`, because the loop only records
on strict improvement over the initial `0.0`. -/
theorem claim_C5_counterexample :
    (validateDefault "a" "b\nc" [] []).clause_similarity_samples =
      [⟨"a", none, 0⟩] ∧
    clause_similarity "a" "b" = 0 := by
  constructor
  · show (validateTexts defaultValidator panFindall gstFindall "a" "b\nc"
      [] []).clause_similarity_samples = _
    rw [samples_eq defaultValidator panFindall gstFindall "a" "b\nc" [] [],
      show mainsOf "a" = ["a"] from by decide, List.map_cons, List.map_nil,
      show clientsOf "b\nc" = ["b", "c"] from by decide, bestMatch_a_bc]
  · exact sim_a_b_zero

/-- C5, amended: one similarity sample per line of the first 20
non-empty trimmed main lines; each sample's score is the maximum of the
similarities over the first 40 non-empty trimmed client lines taken
together with the initial `0.0` (so `0.0` when there are no client
lines); when that maximum is positive the recorded best match is the
first client line attaining it (strict `>`, first wins ties), but when
the maximum is `0.0` the recorded best match is `None` rather than the
first line attaining it. -/
theorem claim_C5_amended :
    ∀ (v : Validator) (panF gstF : String → List String) (mt ct : String)
      (dts dns : List String),
    ((validateTexts v panF gstF mt ct dts dns).clause_similarity_samples).length =
      (mainsOf mt).length ∧
    (∀ i, i < (mainsOf mt).length →
      (((validateTexts v panF gstF mt ct dts dns).clause_similarity_samples).getD i
          ⟨"", none, 0⟩).main = (mainsOf mt).getD i "" ∧
      (((validateTexts v panF gstF mt ct dts dns).clause_similarity_samples).getD i
          ⟨"", none, 0⟩).score =
        ((clientsOf ct).map (clause_similarity ((mainsOf mt).getD i ""))).foldl max 0 ∧
      ((((validateTexts v panF gstF mt ct dts dns).clause_similarity_samples).getD i
          ⟨"", none, 0⟩).score = 0 →
        (((validateTexts v panF gstF mt ct dts dns).clause_similarity_samples).getD i
          ⟨"", none, 0⟩).best_match = none) ∧
      (0 < (((validateTexts v panF gstF mt ct dts dns).clause_similarity_samples).getD i
          ⟨"", none, 0⟩).score →
        ∃ pre c post, clientsOf ct = pre ++ c :: post ∧
          (((validateTexts v panF gstF mt ct dts dns).clause_similarity_samples).getD i
            ⟨"", none, 0⟩).best_match = some c ∧
          clause_similarity ((mainsOf mt).getD i "") c =
            (((validateTexts v panF gstF mt ct dts dns).clause_similarity_samples).getD i
              ⟨"", none, 0⟩).score ∧
          ∀ c' ∈ pre, clause_similarity ((mainsOf mt).getD i "") c' <
            (((validateTexts v panF gstF mt ct dts dns).clause_similarity_samples).getD i
              ⟨"", none, 0⟩).score)) := by
  intro v panF gstF mt ct dts dns
  rw [samples_eq v panF gstF mt ct dts dns]
  constructor
  · rw [List.length_map]
  · intro i hi
    rw [getD_map_lt (fun m => (⟨m, (bestMatchFor m (clientsOf ct)).1,
      (bestMatchFor m (clientsOf ct)).2⟩ : SimSample)) (mainsOf mt) i hi ⟨"", none, 0⟩ ""]
    set m := (mainsOf mt).getD i "" with hm
    have hsnd : (bestMatchFor m (clientsOf ct)).2 =
        ((clientsOf ct).map (clause_similarity m)).foldl max 0 := by
      unfold bestMatchFor
      rw [simFold_snd m (clientsOf ct) (none, 0)]
    refine ⟨rfl, hsnd, ?_, ?_⟩
    · intro h0
      show (bestMatchFor m (clientsOf ct)).1 = none
      unfold bestMatchFor
      rw [simFold_none_iff m (clientsOf ct) none 0]
      refine ⟨rfl, fun c hc => ?_⟩
      have hle := (le_foldl_max ((clientsOf ct).map (clause_similarity m)) 0).2
        (clause_similarity m c) (List.mem_map_of_mem _ hc)
      rw [← hsnd] at hle
      calc clause_similarity m c ≤ (bestMatchFor m (clientsOf ct)).2 := hle
        _ = 0 := h0
    · intro hpos
      have hne : (bestMatchFor m (clientsOf ct)).1 ≠ none := by
        intro hn
        have hall := (by
          unfold bestMatchFor at hn
          rwa [simFold_none_iff m (clientsOf ct) none 0] at hn :
          none = none ∧ ∀ c ∈ clientsOf ct, clause_similarity m c ≤ 0)
        have hb : (bestMatchFor m (clientsOf ct)).2 ≤ 0 := by
          rw [hsnd]
          exact foldl_max_le ((clientsOf ct).map (clause_similarity m)) 0 0
            (le_refl 0) (fun x hx => by
              obtain ⟨c, hc, rfl⟩ := List.mem_map.mp hx
              exact hall.2 c hc)
        exact absurd hpos (not_lt.mpr hb)
      obtain ⟨c, hc⟩ := Option.ne_none_iff_exists'.mp hne
      have hsome := hc
      unfold bestMatchFor at hsome
      rcases simFold_some m (clientsOf ct) none 0 c hsome with
        ⟨h1, -, -⟩ | ⟨pre, post, he, h2, h3, h4⟩
      · cases h1
      · refine ⟨pre, c, post, he, hc, ?_, ?_⟩
        · show clause_similarity m c = (bestMatchFor m (clientsOf ct)).2
          exact h2
        · intro c' hc'
          have := h4 c' hc'
          show clause_similarity m c' < (bestMatchFor m (clientsOf ct)).2
          calc clause_similarity m c' < clause_similarity m c := this
            _ = (bestMatchFor m (clientsOf ct)).2 := h2

/-- C5, witness: the sample structure and score formula at the
spec's end-to-end example. -/
theorem claim_C5_witness :
    (((validateTexts defaultValidator panFindall gstFindall "Line1" "Line1\nLineX"
        [] []).clause_similarity_samples).getD 0 ⟨"", none, 0⟩).main =
      (mainsOf "Line1").getD 0 "" :=
  (claim_C5_amended defaultValidator panFindall gstFindall "Line1" "Line1\nLineX"
    [] [] |>.2 0 (by decide)).1

/-- C6, counterexample: the similarity sample for main `"a"` against
client `"b"` carries `best_match = None` — a missing value, not an
empty string — so consumers of `best_match` must branch on absence. -/
theorem claim_C6_counterexample :
    (validateDefault "a" "b" [] []).clause_similarity_samples = [⟨"a", none, 0⟩] := by
  show (validateTexts defaultValidator panFindall gstFindall "a" "b"
    [] []).clause_similarity_samples = _
  rw [samples_eq defaultValidator panFindall gstFindall "a" "b" [] [],
    show mainsOf "a" = ["a"] from by decide, List.map_cons, List.map_nil,
    show clientsOf "b" = ["b"] from by decide, bestMatch_a_b]

/-- C6, amended: every textual field of the report other than a
sample's best match is an empty string or sequence rather than a
missing value, but `best_match` is `None` exactly when no compared
client line has positive similarity, and otherwise holds one of the
compared client lines. -/
theorem claim_C6_amended :
    ∀ (v : Validator) (panF gstF : String → List String) (mt ct : String)
      (dts dns : List String) (s : SimSample),
    s ∈ (validateTexts v panF gstF mt ct dts dns).clause_similarity_samples →
    (s.best_match = none ↔ ∀ c ∈ clientsOf ct, clause_similarity s.main c = 0) ∧
    (∀ c, s.best_match = some c → c ∈ clientsOf ct) := by
  intro v panF gstF mt ct dts dns s hs
  rw [samples_eq v panF gstF mt ct dts dns] at hs
  obtain ⟨m, hm, rfl⟩ := List.mem_map.mp hs
  constructor
  · show (bestMatchFor m (clientsOf ct)).1 = none ↔
      ∀ c ∈ clientsOf ct, clause_similarity m c = 0
    unfold bestMatchFor
    rw [simFold_none_iff m (clientsOf ct) none 0]
    constructor
    · rintro ⟨-, hall⟩ c hc
      exact le_antisymm (hall c hc) (fuzzy_ratio_nonneg m c)
    · intro hall
      exact ⟨rfl, fun c hc => le_of_eq (hall c hc)⟩
  · intro c hc
    have hsome : (bestMatchFor m (clientsOf ct)).1 = some c := hc
    unfold bestMatchFor at hsome
    rcases simFold_some m (clientsOf ct) none 0 c hsome with
      ⟨h1, -, -⟩ | ⟨pre, post, he, -, -, -⟩
    · cases h1
    · rw [he]
      exact List.mem_append_right pre (List.mem_cons_self c post)

/-- C6, witness: the none case holds exactly because every compared
similarity is zero. -/
theorem claim_C6_witness :
    (⟨"a", none, 0⟩ : SimSample).best_match = none ↔
      ∀ c ∈ clientsOf "b",
        clause_similarity (⟨"a", none, 0⟩ : SimSample).main c = 0 :=
  (claim_C6_amended defaultValidator panFindall gstFindall "a" "b" [] []
    ⟨"a", none, 0⟩ (by
      rw [samples_eq defaultValidator panFindall gstFindall "a" "b" [] [],
        show mainsOf "a" = ["a"] from by decide, List.map_cons, List.map_nil,
        show clientsOf "b" = ["b"] from by decide, bestMatch_a_b]
      exact List.mem_singleton.mpr rfl)).1

/-- C9: whitespace-only extracted text (main, client or extra document)
is normalized to the empty string before any scanning, diffing or
similarity matching — the validation result equals the one for the
empty string, the main-side identifier and keyword results are empty,
the diff is taken on the empty string, and a whitespace-only extra
document summarizes to empty sequences and an empty snippet. -/
theorem claim_C9 :
    ∀ (mt ct d : String) (dts dns : List String),
    (pyStrip mt = "" → validateDefault mt ct dts dns = validateDefault "" ct dts dns) ∧
    (pyStrip ct = "" → validateDefault mt ct dts dns = validateDefault mt "" dts dns) ∧
    (pyStrip mt = "" →
      (validateDefault mt ct dts dns).pan_main = [] ∧
      (validateDefault mt ct dts dns).gst_main = [] ∧
      (validateDefault mt ct dts dns).coi_main = [] ∧
      (validateDefault mt ct dts dns).rate_main = [] ∧
      (validateDefault mt ct dts dns).diff = simple_diff "" (normalizeText ct)) ∧
    (pyStrip d = "" →
      mkDocSummary defaultValidator panFindall gstFindall d = ⟨[], [], [], [], ""⟩) := by
  intro mt ct d dts dns
  refine ⟨?_, ?_, ?_, ?_⟩
  · intro h
    unfold validateDefault validateTexts
    rw [normalizeText_of_strip mt h, normalizeText_empty]
  · intro h
    unfold validateDefault validateTexts
    rw [normalizeText_of_strip ct h, normalizeText_empty]
  · intro h
    unfold validateDefault validateTexts
    rw [normalizeText_of_strip mt h]
    refine ⟨rfl, rfl, ?_, ?_, rfl⟩
    · show keyword_check "" defaultValidator.coi_keywords = []
      decide
    · show keyword_check "" defaultValidator.ratecard_keywords = []
      decide
  · intro h
    unfold mkDocSummary
    rw [normalizeText_of_strip d h]
    decide

/-- C9, witness: a whitespace-only main text validates identically to
the empty main text. -/
theorem claim_C9_witness :
    validateDefault " \n\t " "x" [] [] = validateDefault "" "x" [] [] :=
  (claim_C9 " \n\t " "x" "" [] []).1 (by decide)

/-- C10: the extra-documents summary is keyed by display name
(`document_{i+1}.pdf` when no name is supplied); a key reads back the
summary of the last supplied document bearing that name, so later
documents overwrite earlier ones and the mapping can hold fewer entries
than documents supplied (two same-named documents yield one entry with
the second document's summary). -/
theorem claim_C10 :
    (∀ (v : Validator) (panF gstF : String → List String) (mt ct : String)
       (dts dns : List String) (k : String),
      alookup (validateTexts v panF gstF mt ct dts dns).documents k =
        ((dts.enum.filter (fun p => displayName dns p.1 == k)).getLast?).map
          (fun p => mkDocSummary v panF gstF p.2) ∧
      (validateTexts v panF gstF mt ct dts dns).documents.length ≤ dts.length) ∧
    ((validateDefault "" "" ["a", "b"] ["n", "n"]).documents =
      [("n", mkDocSummary defaultValidator panFindall gstFindall "b")] ∧
     (["a", "b"] : List String).length = 2) := by
  constructor
  · intro v panF gstF mt ct dts dns k
    constructor
    · have h := foldl_dictInsert_lookup (fun p : Nat × String => displayName dns p.1)
        (fun p : Nat × String => mkDocSummary v panF gstF p.2) dts.enum [] k
      refine Eq.trans h ?_
      cases hgl : (dts.enum.filter (fun p => displayName dns p.1 == k)).getLast? with
      | none => rfl
      | some p => rfl
    · have h := foldl_dictInsert_length (fun p : Nat × String => displayName dns p.1)
        (fun p : Nat × String => mkDocSummary v panF gstF p.2) dts.enum []
      have hlen : dts.enum.length = dts.length := List.enum_length
      show (dts.enum.foldl (fun m p => dictInsert m (displayName dns p.1)
        (mkDocSummary v panF gstF p.2)) []).length ≤ dts.length
      have h0 : ([] : List (String × DocSummary)).length = 0 := rfl
      omega
  · exact ⟨by decide, rfl⟩

end Validation
